import Mathlib

/-!
# Verification of the truncated matrix-Fourier FFT core

This development gives a shallow embedding of the FFT core found in
`src/mpc/src/abs.c` (the functions `fft_butterfly_twiddle`,
`fft_radix2_twiddle`, `fft_truncate1_twiddle`, `fft_mfa_truncate_sqrt2`
and `fft_mfa_truncate_sqrt2_outer`) and proves properties of it.

The embedding has two layers.

* A value-level model of `fft_butterfly_twiddle`, whose coefficients are
  residues modulo `2^(limbs*W) + 1` (`W` is the machine word width
  `FLINT_BITS`).  The word-array primitives it calls (`butterfly_lshB`,
  `mpn_mul_2expmod_2expp1`, `mpn_neg_n`) are not part of the repository
  source; they are modelled from the spec as modular arithmetic.

* A pointer-machine model of the transforms.  A state consists of a heap
  of coefficient buffers (`mem : ℕ → C`, indexed by buffer id), a slot
  array `ptr : ℕ → ℕ` holding the buffer id owned by each signal slot
  (the `ii` array of the C code), and the three scratch variables
  `t1`, `t2`, `temp`, each holding a buffer id.  Since the control flow
  of every transform depends only on the integer parameters and never on
  the coefficient data, each transform is translated as a *compiler*
  from its parameters to a list of primitive operations (`FFTOp`),
  mirroring the C code line by line, together with an executor `exec`
  giving the operations their state semantics.  The elementary
  coefficient operations (`fft_butterfly`, `fft_butterfly_sqrt2`,
  `fft_adjust`, `fft_adjust_sqrt2`, `mpn_add_n`) are external
  collaborators of the core and are kept abstract in a structure of
  primitives `FFTPrims`.
-/

/-! ## Value-level model of `fft_butterfly_twiddle` -/

/-- Modelled from the spec: the external word-level primitive
`butterfly_lshB(u, v, s, t, limbs, x, y)` which is missing from the
source tree.  Per the spec's description of the coefficient arithmetic
primitives, it produces the sum and the difference of two residues
modulo `2^(limbs*W)+1`, each cyclically shifted by a number of whole
words (multiplication by `2^(x*W)` resp. `2^(y*W)` in the ring). -/
def butterfly_lshB (limbs W : ℕ) (s t : ZMod (2 ^ (limbs * W) + 1)) (x y : ℕ) :
    ZMod (2 ^ (limbs * W) + 1) × ZMod (2 ^ (limbs * W) + 1) :=
  ((s + t) * 2 ^ (x * W), (s - t) * 2 ^ (y * W))

/-- Modelled from the spec: the external primitive
`mpn_mul_2expmod_2expp1(u, s, limbs, b)`, missing from the source tree:
multiplication by `2^b` modulo `2^(limbs*W)+1` for a sub-word shift
amount `b`. -/
def mpn_mul_2expmod_2expp1 (limbs W : ℕ) (s : ZMod (2 ^ (limbs * W) + 1)) (b : ℕ) :
    ZMod (2 ^ (limbs * W) + 1) :=
  s * 2 ^ b

/-- Modelled from the spec: the external primitive `mpn_neg_n`, missing
from the source tree: negation of a residue modulo `2^(limbs*W)+1`. -/
def mpn_neg_n (limbs W : ℕ) (s : ZMod (2 ^ (limbs * W) + 1)) :
    ZMod (2 ^ (limbs * W) + 1) :=
  -s

/-- Value-level translation of `fft_butterfly_twiddle` from
`src/mpc/src/abs.c` (lines 80-110): set `u = 2^b1*(s + t)` and
`v = 2^b2*(s - t)` modulo `2^(limbs*W)+1`, where a shift amount at least
`nw = limbs*W` is first reduced by `nw` and accounted for by a final
negation, and the reduced shift is split into a whole-word part and a
sub-word part. -/
def fft_butterfly_twiddle (limbs W : ℕ) (s t : ZMod (2 ^ (limbs * W) + 1))
    (b1 b2 : ℕ) : ZMod (2 ^ (limbs * W) + 1) × ZMod (2 ^ (limbs * W) + 1) :=
  let nw := limbs * W
  let negate2 : Bool := decide (nw ≤ b1)
  let b1' := if nw ≤ b1 then b1 - nw else b1
  let x := b1' / W
  let b1'' := b1' % W
  let negate1 : Bool := decide (nw ≤ b2)
  let b2' := if nw ≤ b2 then b2 - nw else b2
  let y := b2' / W
  let b2'' := b2' % W
  let uv := butterfly_lshB limbs W s t x y
  let u := mpn_mul_2expmod_2expp1 limbs W uv.1 b1''
  let u := if negate2 then mpn_neg_n limbs W u else u
  let v := mpn_mul_2expmod_2expp1 limbs W uv.2 b2''
  let v := if negate1 then mpn_neg_n limbs W v else v
  (u, v)

/-- In the ring `ZMod (2^nw + 1)` the element `2^nw` is `-1`. -/
lemma two_pow_nw_eq_neg_one (nw : ℕ) :
    (2 : ZMod (2 ^ nw + 1)) ^ nw = -1 := by
  have h : ((2 ^ nw + 1 : ℕ) : ZMod (2 ^ nw + 1)) = 0 := ZMod.natCast_self _
  push_cast at h
  linear_combination h

/-- Splitting a rotation into a whole-word part and a sub-word part. -/
lemma rot_split (nw W b : ℕ) (x : ZMod (2 ^ nw + 1)) :
    x * 2 ^ (b / W * W) * 2 ^ (b % W) = x * 2 ^ b := by
  have h : b / W * W + b % W = b := by
    rw [mul_comm]
    exact Nat.div_add_mod b W
  rw [mul_assoc, ← pow_add, h]

/-- A rotation by `b ≥ nw` equals the rotation by `b - nw` followed by a
negation, because `2^nw ≡ -1` in the ring. -/
lemma rot_wrap (nw b : ℕ) (x : ZMod (2 ^ nw + 1)) (h : nw ≤ b) :
    -(x * 2 ^ (b - nw)) = x * 2 ^ b := by
  have h2 : (2 : ZMod (2 ^ nw + 1)) ^ b = 2 ^ (b - nw) * 2 ^ nw := by
    rw [← pow_add]
    congr 1
    omega
  rw [h2, two_pow_nw_eq_neg_one]
  ring

/-- **C2.** `fft_butterfly_twiddle` computes `u = 2^b1 * (s + t)` and
`v = 2^b2 * (s - t)` modulo `2^nw + 1` (`nw = limbs*W`), for all
rotation amounts `b1, b2 < 2*nw`; a rotation by `b ≥ nw` is realized by
the code as a rotation by `b - nw` followed by a sign flip. -/
theorem fft_butterfly_twiddle_correct (limbs W : ℕ) (hl : 0 < limbs) (hW : 0 < W)
    (s t : ZMod (2 ^ (limbs * W) + 1)) (b1 b2 : ℕ)
    (hb1 : b1 < 2 * (limbs * W)) (hb2 : b2 < 2 * (limbs * W)) :
    fft_butterfly_twiddle limbs W s t b1 b2 =
      ((s + t) * 2 ^ b1, (s - t) * 2 ^ b2) := by
  by_cases h1 : limbs * W ≤ b1 <;> by_cases h2 : limbs * W ≤ b2 <;>
    simp only [fft_butterfly_twiddle, butterfly_lshB, mpn_mul_2expmod_2expp1,
      mpn_neg_n, h1, h2, decide_eq_true_eq, if_true, if_false, ite_true,
      ite_false] <;>
    refine Prod.ext ?_ ?_ <;> dsimp only <;>
    first
      | exact rot_split _ _ _ _
      | (rw [rot_split]
         exact rot_wrap _ _ _ (by assumption))

/-- Witness for C2 at `limbs = 1`, `W = 2` (ring `ZMod 5`), `s = 3`,
`t = 1`, `b1 = 1`, `b2 = 3`. -/
theorem fft_butterfly_twiddle_correct_witness :
    0 < 1 ∧ 0 < 2 ∧ (1 : ℕ) < 2 * (1 * 2) ∧ (3 : ℕ) < 2 * (1 * 2) ∧
      fft_butterfly_twiddle 1 2 (3 : ZMod (2 ^ (1 * 2) + 1)) 1 1 3 =
        (((3 : ZMod (2 ^ (1 * 2) + 1)) + 1) * 2 ^ 1, ((3 : ZMod (2 ^ (1 * 2) + 1)) - 1) * 2 ^ 3) :=
  ⟨by decide, by decide, by decide, by decide,
    fft_butterfly_twiddle_correct 1 2 (by decide) (by decide) 3 1 1 3 (by decide) (by decide)⟩

/-! ## Pointer-machine state model

A state holds the heap of coefficient buffers (indexed by buffer id),
the slot array `ii` mapping slot indices to buffer ids, and the three
scratch variables, each owning a buffer id. -/

/-- The pointer-machine state of a transform: `mem` is the heap of
coefficient buffers (by buffer id), `ptr` maps each signal slot to the
buffer id it owns (the `ii` array of the C code), and `t1`, `t2`,
`temp` are the buffer ids owned by the three scratch variables. -/
structure FFTState (C : Type) where
  mem : ℕ → C
  ptr : ℕ → ℕ
  t1 : ℕ
  t2 : ℕ
  temp : ℕ

/-- The coefficient value currently stored in slot `k`. -/
def vals {C : Type} (st : FFTState C) (k : ℕ) : C := st.mem (st.ptr k)

/-- The ownership map: location `0`,`1`,`2` are the scratch variables
`t1`,`t2`,`temp`, and location `k + 3` is signal slot `k`.  `own st`
returns the buffer id owned by each location. -/
def own {C : Type} (st : FFTState C) (x : ℕ) : ℕ :=
  if x = 0 then st.t1 else if x = 1 then st.t2 else if x = 2 then st.temp
  else st.ptr (x - 3)

/-- The ownership invariant on the first `N` locations: no two live
locations own the same buffer. -/
def OwnInjN {C : Type} (st : FFTState C) (N : ℕ) : Prop :=
  ∀ x, x < N → ∀ y, y < N → own st x = own st y → x = y

/-- A butterfly with ownership transfer: the two results are written
into the buffers owned by the scratch variables `t1` and `t2`, then
`SWAP_PTRS` exchanges those buffers with the ones owned by slots `a`
and `b`. -/
def butterflyPairStep {C : Type} (uv : C × C) (a b : ℕ) (st : FFTState C) :
    FFTState C :=
  { mem := fun id => if id = st.t1 then uv.1 else if id = st.t2 then uv.2
      else st.mem id
    ptr := fun k => if k = a then st.t1 else if k = b then st.t2 else st.ptr k
    t1 := st.ptr a
    t2 := st.ptr b
    temp := st.temp }

/-- As `butterflyPairStep`, but the primitive additionally clobbers the
contents of the `temp` scratch buffer (the sqrt2 butterfly uses it as
workspace). -/
def butterflySqrt2Step {C : Type} (uvt : C × C × C) (a b : ℕ) (st : FFTState C) :
    FFTState C :=
  { mem := fun id => if id = st.t1 then uvt.1 else if id = st.t2 then uvt.2.1
      else if id = st.temp then uvt.2.2 else st.mem id
    ptr := fun k => if k = a then st.t1 else if k = b then st.t2 else st.ptr k
    t1 := st.ptr a
    t2 := st.ptr b
    temp := st.temp }

/-- Overwrite the contents of the buffer owned by slot `dst` in place
(no ownership change). -/
def writeSlot {C : Type} (dst : ℕ) (x : C) (st : FFTState C) : FFTState C :=
  { st with mem := fun id => if id = st.ptr dst then x else st.mem id }

/-- As `writeSlot`, but the primitive additionally clobbers the contents
of the `temp` scratch buffer (`fft_adjust_sqrt2` uses it as workspace). -/
def adjustSqrt2Step {C : Type} (rt : C × C) (dst : ℕ) (st : FFTState C) :
    FFTState C :=
  { st with mem := fun id => if id = st.ptr dst then rt.1
      else if id = st.temp then rt.2 else st.mem id }

/-- `SWAP_PTRS` between two slots: exchange which buffers the slots own. -/
def swapSlots {C : Type} (a b : ℕ) (st : FFTState C) : FFTState C :=
  { st with ptr := fun k => if k = a then st.ptr b else if k = b then st.ptr a
      else st.ptr k }

/-! ## The operation language

The control flow of every transform in the source depends only on the
integer parameters, never on coefficient data, so each transform is
translated as a compiler from its parameters to the list of primitive
operations it performs, mirroring the source line by line. -/

/-- One primitive operation of the FFT core.  Slots and all numeric
arguments are recorded; the coefficient semantics of the external
primitives is supplied at execution time. -/
inductive FFTOp : Type where
  | bfly (a b i limbs w : ℕ) : FFTOp
  | bflyS (a b i limbs w : ℕ) : FFTOp
  | bflyT (a b limbs b1 b2 : ℕ) : FFTOp
  | addN (dst src sz : ℕ) : FFTOp
  | adj (dst src i limbs w : ℕ) : FFTOp
  | adjS (dst src i limbs w : ℕ) : FFTOp
  | swapP (a b : ℕ) : FFTOp
  deriving DecidableEq, Repr

/-- The external coefficient primitives the core composes (spec §6).
They are abstract: every theorem about the transforms holds for any
implementation of them.
`fft_butterfly s t i limbs w` yields the two butterfly outputs,
`fft_butterfly_sqrt2` additionally yields the leftover contents of its
`temp` workspace, `fft_adjust s i limbs w` yields the one-sided combine,
`fft_adjust_sqrt2` additionally yields the leftover `temp` contents, and
`mpn_add_n a b sz` is the word-array addition. -/
structure FFTPrims (C : Type) where
  fft_butterfly : C → C → ℕ → ℕ → ℕ → C × C
  fft_butterfly_sqrt2 : C → C → ℕ → ℕ → ℕ → C × C × C
  fft_adjust : C → ℕ → ℕ → ℕ → C
  fft_adjust_sqrt2 : C → ℕ → ℕ → ℕ → C × C
  fft_butterfly_twiddle_p : C → C → ℕ → ℕ → ℕ → C × C
  mpn_add_n_p : C → C → ℕ → C

/-- Execute one primitive operation. -/
def execOp {C : Type} (P : FFTPrims C) (st : FFTState C) : FFTOp → FFTState C
  | .bfly a b i limbs w =>
      butterflyPairStep (P.fft_butterfly (vals st a) (vals st b) i limbs w) a b st
  | .bflyS a b i limbs w =>
      butterflySqrt2Step (P.fft_butterfly_sqrt2 (vals st a) (vals st b) i limbs w) a b st
  | .bflyT a b limbs b1 b2 =>
      butterflyPairStep (P.fft_butterfly_twiddle_p (vals st a) (vals st b) limbs b1 b2) a b st
  | .addN dst src sz =>
      writeSlot dst (P.mpn_add_n_p (vals st dst) (vals st src) sz) st
  | .adj dst src i limbs w =>
      writeSlot dst (P.fft_adjust (vals st src) i limbs w) st
  | .adjS dst src i limbs w =>
      adjustSqrt2Step (P.fft_adjust_sqrt2 (vals st src) i limbs w) dst st
  | .swapP a b => swapSlots a b st

/-- Execute a list of operations from left to right. -/
def exec {C : Type} (P : FFTPrims C) : List FFTOp → FFTState C → FFTState C
  | [], st => st
  | op :: ops, st => exec P ops (execOp P st op)

lemma exec_append {C : Type} (P : FFTPrims C) (l1 l2 : List FFTOp)
    (st : FFTState C) : exec P (l1 ++ l2) st = exec P l2 (exec P l1 st) := by
  induction l1 generalizing st with
  | nil => rfl
  | cons op ops ih => exact ih (execOp P st op)

/-- The slots whose ownership or owned-buffer contents an operation may
change. -/
def FFTOp.writesList : FFTOp → List ℕ
  | .bfly a b _ _ _ => [a, b]
  | .bflyS a b _ _ _ => [a, b]
  | .bflyT a b _ _ _ => [a, b]
  | .addN dst _ _ => [dst]
  | .adj dst _ _ _ _ => [dst]
  | .adjS dst _ _ _ _ => [dst]
  | .swapP a b => [a, b]

/-- All slots an operation mentions (reads or writes). -/
def FFTOp.slotsList : FFTOp → List ℕ
  | .bfly a b _ _ _ => [a, b]
  | .bflyS a b _ _ _ => [a, b]
  | .bflyT a b _ _ _ => [a, b]
  | .addN dst src _ => [dst, src]
  | .adj dst src _ _ _ => [dst, src]
  | .adjS dst src _ _ _ => [dst, src]
  | .swapP a b => [a, b]

/-- The non-aliasing condition the C code requires of each operation:
the two buffers written through the scratch pointers must belong to two
distinct slots. -/
def FFTOp.distinctOk : FFTOp → Prop
  | .bfly a b _ _ _ => a ≠ b
  | .bflyS a b _ _ _ => a ≠ b
  | .bflyT a b _ _ _ => a ≠ b
  | .addN _ _ _ => True
  | .adj _ _ _ _ _ => True
  | .adjS _ _ _ _ _ => True
  | .swapP _ _ => True

instance (op : FFTOp) : Decidable op.distinctOk := by
  cases op <;> simp only [FFTOp.distinctOk] <;> infer_instance

/-! ## Ownership: every operation permutes the ownership map

Each operation relocates buffers by ownership exchange only: the
ownership map after the operation is the old ownership map composed
with a permutation of the locations, supported on the locations the
operation touches. -/

/-- `st'` is reached from `st` by relocating buffers among the first `N`
locations only: the ownership map of `st'` is that of `st` composed with
a permutation fixing every location `≥ N`. -/
def OwnPermBelow {C : Type} (st st' : FFTState C) (N : ℕ) : Prop :=
  ∃ σ : Equiv.Perm ℕ, (∀ x, own st' x = own st (σ x)) ∧ ∀ x, N ≤ x → σ x = x

lemma ownPermBelow_refl {C : Type} (st : FFTState C) (N : ℕ) :
    OwnPermBelow st st N :=
  ⟨Equiv.refl ℕ, fun _ => rfl, fun _ _ => rfl⟩

lemma ownPermBelow_trans {C : Type} {st st' st'' : FFTState C} {N : ℕ}
    (h1 : OwnPermBelow st st' N) (h2 : OwnPermBelow st' st'' N) :
    OwnPermBelow st st'' N := by
  obtain ⟨σ1, hval1, hfix1⟩ := h1
  obtain ⟨σ2, hval2, hfix2⟩ := h2
  refine ⟨σ2.trans σ1, fun x => ?_, fun x hx => ?_⟩
  · rw [Equiv.trans_apply, hval2, hval1]
  · rw [Equiv.trans_apply, hfix2 x hx, hfix1 x hx]

lemma own_of_eq_ptr_scratch {C : Type} {st st' : FFTState C}
    (hp : st'.ptr = st.ptr) (h1 : st'.t1 = st.t1) (h2 : st'.t2 = st.t2)
    (h3 : st'.temp = st.temp) : ∀ x, own st' x = own st x := by
  intro x
  simp only [own, hp, h1, h2, h3]

lemma swap_fix {u v x : ℕ} (h1 : x ≠ u) (h2 : x ≠ v) : Equiv.swap u v x = x :=
  Equiv.swap_apply_of_ne_of_ne h1 h2

lemma ownPermBelow_butterflyPairStep {C : Type} (uv : C × C) (a b : ℕ)
    (st : FFTState C) (N : ℕ) (hab : a ≠ b) (haN : a + 3 < N) (hbN : b + 3 < N) :
    OwnPermBelow st (butterflyPairStep uv a b st) N := by
  refine ⟨(Equiv.swap 1 (b + 3)).trans (Equiv.swap 0 (a + 3)), fun x => ?_,
    fun x hx => ?_⟩
  · simp only [Equiv.trans_apply]
    by_cases h0 : x = 0
    · subst h0
      have e1 : Equiv.swap 1 (b + 3) 0 = 0 := swap_fix (by omega) (by omega)
      have e2 : Equiv.swap 0 (a + 3) 0 = a + 3 := Equiv.swap_apply_left 0 (a + 3)
      rw [e1, e2]
      simp [own, butterflyPairStep]
    by_cases h1 : x = 1
    · subst h1
      have e1 : Equiv.swap 1 (b + 3) 1 = b + 3 := Equiv.swap_apply_left 1 (b + 3)
      have e2 : Equiv.swap 0 (a + 3) (b + 3) = b + 3 :=
        swap_fix (by omega) (by omega)
      rw [e1, e2]
      simp [own, butterflyPairStep]
    by_cases h2 : x = 2
    · subst h2
      have e1 : Equiv.swap 1 (b + 3) 2 = 2 := swap_fix (by omega) (by omega)
      have e2 : Equiv.swap 0 (a + 3) 2 = 2 := swap_fix (by omega) (by omega)
      rw [e1, e2]
      simp [own, butterflyPairStep]
    by_cases ha : x = a + 3
    · subst ha
      have e1 : Equiv.swap 1 (b + 3) (a + 3) = a + 3 :=
        swap_fix (by omega) (by omega)
      have e2 : Equiv.swap 0 (a + 3) (a + 3) = 0 :=
        Equiv.swap_apply_right 0 (a + 3)
      rw [e1, e2]
      simp [own, butterflyPairStep]
    by_cases hb : x = b + 3
    · subst hb
      have e1 : Equiv.swap 1 (b + 3) (b + 3) = 1 :=
        Equiv.swap_apply_right 1 (b + 3)
      have e2 : Equiv.swap 0 (a + 3) 1 = 1 := swap_fix (by omega) (by omega)
      rw [e1, e2]
      have hba : b ≠ a := fun h => hab h.symm
      simp [own, butterflyPairStep, hba]
    · have e1 : Equiv.swap 1 (b + 3) x = x := swap_fix (by omega) (by omega)
      have e2 : Equiv.swap 0 (a + 3) x = x := swap_fix (by omega) (by omega)
      rw [e1, e2]
      have hxa : x - 3 ≠ a := by omega
      have hxb : x - 3 ≠ b := by omega
      simp [own, butterflyPairStep, h0, h1, h2, hxa, hxb]
  · have e1 : Equiv.swap 1 (b + 3) x = x := swap_fix (by omega) (by omega)
    have e2 : Equiv.swap 0 (a + 3) x = x := swap_fix (by omega) (by omega)
    rw [Equiv.trans_apply, e1, e2]

lemma ownPermBelow_butterflySqrt2Step {C : Type} (uvt : C × C × C) (a b : ℕ)
    (st : FFTState C) (N : ℕ) (hab : a ≠ b) (haN : a + 3 < N) (hbN : b + 3 < N) :
    OwnPermBelow st (butterflySqrt2Step uvt a b st) N := by
  have h : ∀ x, own (butterflySqrt2Step uvt a b st) x
      = own (butterflyPairStep (uvt.1, uvt.2.1) a b st) x := by
    intro x
    exact own_of_eq_ptr_scratch rfl rfl rfl rfl x
  obtain ⟨σ, hval, hfix⟩ :=
    ownPermBelow_butterflyPairStep (uvt.1, uvt.2.1) a b st N hab haN hbN
  exact ⟨σ, fun x => (h x).trans (hval x), hfix⟩

lemma ownPermBelow_writeSlot {C : Type} (dst : ℕ) (x : C) (st : FFTState C)
    (N : ℕ) : OwnPermBelow st (writeSlot dst x st) N :=
  ⟨Equiv.refl ℕ, fun y => own_of_eq_ptr_scratch rfl rfl rfl rfl y, fun _ _ => rfl⟩

lemma ownPermBelow_adjustSqrt2Step {C : Type} (rt : C × C) (dst : ℕ)
    (st : FFTState C) (N : ℕ) : OwnPermBelow st (adjustSqrt2Step rt dst st) N :=
  ⟨Equiv.refl ℕ, fun y => own_of_eq_ptr_scratch rfl rfl rfl rfl y, fun _ _ => rfl⟩

lemma ownPermBelow_swapSlots {C : Type} (a b : ℕ) (st : FFTState C) (N : ℕ)
    (haN : a + 3 < N) (hbN : b + 3 < N) :
    OwnPermBelow st (swapSlots a b st) N := by
  refine ⟨Equiv.swap (a + 3) (b + 3), fun x => ?_, fun x hx => ?_⟩
  · by_cases ha : x = a + 3
    · subst ha
      rw [Equiv.swap_apply_left]
      by_cases hab : a = b
      · subst hab
        simp [own, swapSlots]
      · simp [own, swapSlots]
    by_cases hb : x = b + 3
    · subst hb
      rw [Equiv.swap_apply_right]
      by_cases hab : b = a
      · subst hab
        simp [own, swapSlots]
      · simp [own, swapSlots, hab]
    · rw [swap_fix ha hb]
      by_cases h0 : x = 0
      · subst h0
        simp [own, swapSlots]
      by_cases h1 : x = 1
      · subst h1
        simp [own, swapSlots]
      by_cases h2 : x = 2
      · subst h2
        simp [own, swapSlots]
      · have hxa : x - 3 ≠ a := by omega
        have hxb : x - 3 ≠ b := by omega
        simp [own, swapSlots, h0, h1, h2, hxa, hxb]
  · exact swap_fix (by omega) (by omega)

/-- Side conditions making an operation a legal ownership exchange with
all touched slots below location bound `N`: the `SWAP_PTRS` pair of a
butterfly involves two distinct slots (the C code forbids aliasing), and
every written slot lies below the bound. -/
def OpOKBelow (N : ℕ) (op : FFTOp) : Prop :=
  op.distinctOk ∧ ∀ s ∈ op.writesList, s + 3 < N

lemma execOp_ownPerm {C : Type} (P : FFTPrims C) (st : FFTState C) (op : FFTOp)
    (N : ℕ) (h : OpOKBelow N op) : OwnPermBelow st (execOp P st op) N := by
  obtain ⟨hd, hw⟩ := h
  cases op with
  | bfly a b i limbs w =>
      exact ownPermBelow_butterflyPairStep _ a b st N hd
        (hw a (by simp [FFTOp.writesList])) (hw b (by simp [FFTOp.writesList]))
  | bflyS a b i limbs w =>
      exact ownPermBelow_butterflySqrt2Step _ a b st N hd
        (hw a (by simp [FFTOp.writesList])) (hw b (by simp [FFTOp.writesList]))
  | bflyT a b limbs b1 b2 =>
      exact ownPermBelow_butterflyPairStep _ a b st N hd
        (hw a (by simp [FFTOp.writesList])) (hw b (by simp [FFTOp.writesList]))
  | addN dst src sz => exact ownPermBelow_writeSlot dst _ st N
  | adj dst src i limbs w => exact ownPermBelow_writeSlot dst _ st N
  | adjS dst src i limbs w => exact ownPermBelow_adjustSqrt2Step _ dst st N
  | swapP a b =>
      exact ownPermBelow_swapSlots a b st N
        (hw a (by simp [FFTOp.writesList])) (hw b (by simp [FFTOp.writesList]))

lemma exec_ownPerm {C : Type} (P : FFTPrims C) (ops : List FFTOp)
    (st : FFTState C) (N : ℕ) (h : ∀ op ∈ ops, OpOKBelow N op) :
    OwnPermBelow st (exec P ops st) N := by
  induction ops generalizing st with
  | nil => exact ownPermBelow_refl st N
  | cons op rest ih =>
      exact ownPermBelow_trans
        (execOp_ownPerm P st op N (h op (List.mem_cons_self op rest)))
        (ih (execOp P st op) (fun o ho => h o (List.mem_cons_of_mem op ho)))

/-- A permutation of ownership below `N` preserves the ownership
invariant on the first `N` locations. -/
lemma ownInjN_of_perm {C : Type} {st st' : FFTState C} {N : ℕ}
    (h : OwnPermBelow st st' N) (hinj : OwnInjN st N) : OwnInjN st' N := by
  obtain ⟨σ, hval, hfix⟩ := h
  have hlt : ∀ x, x < N → σ x < N := by
    intro x hx
    by_contra hge
    push_neg at hge
    have h1 : σ (σ x) = σ x := hfix _ hge
    have h2 : σ x = x := σ.injective h1
    omega
  intro x hx y hy hxy
  rw [hval x, hval y] at hxy
  have := hinj (σ x) (hlt x hx) (σ y) (hlt y hy) hxy
  exact σ.injective this

/-! ## Frame: operations touch only their own slots and the scratch buffers -/

/-- The buffers reachable from the scratch variables or from a slot in
the set `Sl`. -/
def OwnedBy {C : Type} (st : FFTState C) (Sl : ℕ → Prop) (id : ℕ) : Prop :=
  id = st.t1 ∨ id = st.t2 ∨ id = st.temp ∨ ∃ k, Sl k ∧ st.ptr k = id

/-- Frame relation: going from `st` to `st'`, the ownership of slots
outside `Sl` is untouched, buffers not reachable from `Sl` or scratch
keep their contents, and the set of buffers reachable from `Sl` and
scratch does not grow. -/
def FrameOK {C : Type} (Sl : ℕ → Prop) (st st' : FFTState C) : Prop :=
  (∀ k, ¬ Sl k → st'.ptr k = st.ptr k) ∧
  (∀ id, ¬ OwnedBy st Sl id → st'.mem id = st.mem id) ∧
  (∀ id, OwnedBy st' Sl id → OwnedBy st Sl id)

lemma frameOK_refl {C : Type} (Sl : ℕ → Prop) (st : FFTState C) :
    FrameOK Sl st st :=
  ⟨fun _ _ => rfl, fun _ _ => rfl, fun _ h => h⟩

lemma frameOK_trans {C : Type} {Sl : ℕ → Prop} {st st' st'' : FFTState C}
    (h1 : FrameOK Sl st st') (h2 : FrameOK Sl st' st'') :
    FrameOK Sl st st'' := by
  obtain ⟨p1, m1, o1⟩ := h1
  obtain ⟨p2, m2, o2⟩ := h2
  refine ⟨fun k hk => (p2 k hk).trans (p1 k hk), fun id hid => ?_,
    fun id hid => o1 id (o2 id hid)⟩
  have hid' : ¬ OwnedBy st' Sl id := fun h => hid (o1 id h)
  exact (m2 id hid').trans (m1 id hid)

lemma frameOK_butterflyPairStep {C : Type} (uv : C × C) (a b : ℕ)
    (st : FFTState C) (Sl : ℕ → Prop) (ha : Sl a) (hb : Sl b) :
    FrameOK Sl st (butterflyPairStep uv a b st) := by
  refine ⟨fun k hk => ?_, fun id hid => ?_, fun id hid => ?_⟩
  · have hka : k ≠ a := fun h => hk (h ▸ ha)
    have hkb : k ≠ b := fun h => hk (h ▸ hb)
    simp [butterflyPairStep, hka, hkb]
  · have h1 : id ≠ st.t1 := fun h => hid (Or.inl h)
    have h2 : id ≠ st.t2 := fun h => hid (Or.inr (Or.inl h))
    simp [butterflyPairStep, h1, h2]
  · rcases hid with h | h | h | ⟨k, hk, hpk⟩
    · exact Or.inr (Or.inr (Or.inr ⟨a, ha, h.symm⟩))
    · exact Or.inr (Or.inr (Or.inr ⟨b, hb, h.symm⟩))
    · exact Or.inr (Or.inr (Or.inl h))
    · simp only [butterflyPairStep] at hpk
      by_cases hka : k = a
      · subst hka
        rw [if_pos rfl] at hpk
        exact Or.inl hpk.symm
      · rw [if_neg hka] at hpk
        by_cases hkb : k = b
        · subst hkb
          rw [if_pos rfl] at hpk
          exact Or.inr (Or.inl hpk.symm)
        · rw [if_neg hkb] at hpk
          exact Or.inr (Or.inr (Or.inr ⟨k, hk, hpk⟩))

lemma frameOK_butterflySqrt2Step {C : Type} (uvt : C × C × C) (a b : ℕ)
    (st : FFTState C) (Sl : ℕ → Prop) (ha : Sl a) (hb : Sl b) :
    FrameOK Sl st (butterflySqrt2Step uvt a b st) := by
  refine ⟨fun k hk => ?_, fun id hid => ?_, fun id hid => ?_⟩
  · have hka : k ≠ a := fun h => hk (h ▸ ha)
    have hkb : k ≠ b := fun h => hk (h ▸ hb)
    simp [butterflySqrt2Step, hka, hkb]
  · have h1 : id ≠ st.t1 := fun h => hid (Or.inl h)
    have h2 : id ≠ st.t2 := fun h => hid (Or.inr (Or.inl h))
    have h3 : id ≠ st.temp := fun h => hid (Or.inr (Or.inr (Or.inl h)))
    simp [butterflySqrt2Step, h1, h2, h3]
  · rcases hid with h | h | h | ⟨k, hk, hpk⟩
    · exact Or.inr (Or.inr (Or.inr ⟨a, ha, h.symm⟩))
    · exact Or.inr (Or.inr (Or.inr ⟨b, hb, h.symm⟩))
    · exact Or.inr (Or.inr (Or.inl h))
    · simp only [butterflySqrt2Step] at hpk
      by_cases hka : k = a
      · subst hka
        rw [if_pos rfl] at hpk
        exact Or.inl hpk.symm
      · rw [if_neg hka] at hpk
        by_cases hkb : k = b
        · subst hkb
          rw [if_pos rfl] at hpk
          exact Or.inr (Or.inl hpk.symm)
        · rw [if_neg hkb] at hpk
          exact Or.inr (Or.inr (Or.inr ⟨k, hk, hpk⟩))

lemma frameOK_writeSlot {C : Type} (dst : ℕ) (x : C) (st : FFTState C)
    (Sl : ℕ → Prop) (hd : Sl dst) : FrameOK Sl st (writeSlot dst x st) := by
  refine ⟨fun k _ => rfl, fun id hid => ?_, fun id hid => hid⟩
  have h1 : id ≠ st.ptr dst :=
    fun h => hid (Or.inr (Or.inr (Or.inr ⟨dst, hd, h.symm⟩)))
  simp [writeSlot, h1]

lemma frameOK_adjustSqrt2Step {C : Type} (rt : C × C) (dst : ℕ)
    (st : FFTState C) (Sl : ℕ → Prop) (hd : Sl dst) :
    FrameOK Sl st (adjustSqrt2Step rt dst st) := by
  refine ⟨fun k _ => rfl, fun id hid => ?_, fun id hid => hid⟩
  have h1 : id ≠ st.ptr dst :=
    fun h => hid (Or.inr (Or.inr (Or.inr ⟨dst, hd, h.symm⟩)))
  have h3 : id ≠ st.temp := fun h => hid (Or.inr (Or.inr (Or.inl h)))
  simp [adjustSqrt2Step, h1, h3]

lemma frameOK_swapSlots {C : Type} (a b : ℕ) (st : FFTState C)
    (Sl : ℕ → Prop) (ha : Sl a) (hb : Sl b) :
    FrameOK Sl st (swapSlots a b st) := by
  refine ⟨fun k hk => ?_, fun id _ => rfl, fun id hid => ?_⟩
  · have hka : k ≠ a := fun h => hk (h ▸ ha)
    have hkb : k ≠ b := fun h => hk (h ▸ hb)
    simp [swapSlots, hka, hkb]
  · rcases hid with h | h | h | ⟨k, hk, hpk⟩
    · exact Or.inl h
    · exact Or.inr (Or.inl h)
    · exact Or.inr (Or.inr (Or.inl h))
    · simp only [swapSlots] at hpk
      by_cases hka : k = a
      · subst hka
        rw [if_pos rfl] at hpk
        exact Or.inr (Or.inr (Or.inr ⟨b, hb, hpk⟩))
      · rw [if_neg hka] at hpk
        by_cases hkb : k = b
        · subst hkb
          rw [if_pos rfl] at hpk
          exact Or.inr (Or.inr (Or.inr ⟨a, ha, hpk⟩))
        · rw [if_neg hkb] at hpk
          exact Or.inr (Or.inr (Or.inr ⟨k, hk, hpk⟩))

lemma execOp_frame {C : Type} (P : FFTPrims C) (st : FFTState C) (op : FFTOp)
    (Sl : ℕ → Prop) (h : ∀ s ∈ op.writesList, Sl s) :
    FrameOK Sl st (execOp P st op) := by
  cases op with
  | bfly a b i limbs w =>
      exact frameOK_butterflyPairStep _ a b st Sl
        (h a (by simp [FFTOp.writesList])) (h b (by simp [FFTOp.writesList]))
  | bflyS a b i limbs w =>
      exact frameOK_butterflySqrt2Step _ a b st Sl
        (h a (by simp [FFTOp.writesList])) (h b (by simp [FFTOp.writesList]))
  | bflyT a b limbs b1 b2 =>
      exact frameOK_butterflyPairStep _ a b st Sl
        (h a (by simp [FFTOp.writesList])) (h b (by simp [FFTOp.writesList]))
  | addN dst src sz =>
      exact frameOK_writeSlot dst _ st Sl (h dst (by simp [FFTOp.writesList]))
  | adj dst src i limbs w =>
      exact frameOK_writeSlot dst _ st Sl (h dst (by simp [FFTOp.writesList]))
  | adjS dst src i limbs w =>
      exact frameOK_adjustSqrt2Step _ dst st Sl (h dst (by simp [FFTOp.writesList]))
  | swapP a b =>
      exact frameOK_swapSlots a b st Sl
        (h a (by simp [FFTOp.writesList])) (h b (by simp [FFTOp.writesList]))

lemma exec_frame {C : Type} (P : FFTPrims C) (ops : List FFTOp)
    (st : FFTState C) (Sl : ℕ → Prop)
    (h : ∀ op ∈ ops, ∀ s ∈ FFTOp.writesList op, Sl s) :
    FrameOK Sl st (exec P ops st) := by
  induction ops generalizing st with
  | nil => exact frameOK_refl Sl st
  | cons op rest ih =>
      exact frameOK_trans
        (execOp_frame P st op Sl (h op (List.mem_cons_self op rest)))
        (ih (execOp P st op) (fun o ho => h o (List.mem_cons_of_mem op ho)))

/-- Under the ownership invariant, a slot outside the frame set keeps
its value: its buffer is distinct from every buffer the operations may
write. -/
lemma frame_vals_outside {C : Type} {Sl : ℕ → Prop} {st st' : FFTState C}
    {N : ℕ} (h : FrameOK Sl st st') (hinj : OwnInjN st N)
    (hSl : ∀ s, Sl s → s + 3 < N) (k : ℕ) (hk : ¬ Sl k) (hkN : k + 3 < N) :
    vals st' k = vals st k := by
  have hptr : st'.ptr k = st.ptr k := h.1 k hk
  have hmem : ¬ OwnedBy st Sl (st.ptr k) := by
    intro ho
    rcases ho with h1 | h1 | h1 | ⟨s, hs, hps⟩
    · have h0 : own st (k + 3) = own st 0 := by
        simp [own]
        exact h1
      have := hinj (k + 3) hkN 0 (by omega) h0
      omega
    · have h0 : own st (k + 3) = own st 1 := by
        simp [own]
        exact h1
      have := hinj (k + 3) hkN 1 (by omega) h0
      omega
    · have h0 : own st (k + 3) = own st 2 := by
        simp [own]
        exact h1
      have := hinj (k + 3) hkN 2 (by omega) h0
      omega
    · have h0 : own st (s + 3) = own st (k + 3) := by
        simp [own]
        exact hps
      have := hinj (s + 3) (hSl s hs) (k + 3) hkN h0
      have hsk : s = k := by omega
      exact hk (hsk ▸ hs)
  rw [vals, vals, hptr, h.2.1 (st.ptr k) hmem]

/-! ## Value semantics of the operations under the ownership invariant -/

lemma ownInj_t1_ne_t2 {C : Type} {st : FFTState C} {N : ℕ}
    (h : OwnInjN st N) (hN : 1 < N) : st.t1 ≠ st.t2 := by
  intro he
  have h0 : own st 0 = own st 1 := by
    simp [own]
    exact he
  have := h 0 (by omega) 1 (by omega) h0
  omega

lemma ownInj_ptr_ne_t1 {C : Type} {st : FFTState C} {N : ℕ}
    (h : OwnInjN st N) {k : ℕ} (hk : k + 3 < N) : st.ptr k ≠ st.t1 := by
  intro he
  have h0 : own st (k + 3) = own st 0 := by
    simp [own]
    exact he
  have := h (k + 3) hk 0 (by omega) h0
  omega

lemma ownInj_ptr_ne_t2 {C : Type} {st : FFTState C} {N : ℕ}
    (h : OwnInjN st N) {k : ℕ} (hk : k + 3 < N) : st.ptr k ≠ st.t2 := by
  intro he
  have h0 : own st (k + 3) = own st 1 := by
    simp [own]
    exact he
  have := h (k + 3) hk 1 (by omega) h0
  omega

lemma ownInj_ptr_ne_temp {C : Type} {st : FFTState C} {N : ℕ}
    (h : OwnInjN st N) {k : ℕ} (hk : k + 3 < N) : st.ptr k ≠ st.temp := by
  intro he
  have h0 : own st (k + 3) = own st 2 := by
    simp [own]
    exact he
  have := h (k + 3) hk 2 (by omega) h0
  omega

lemma ownInj_ptr_inj {C : Type} {st : FFTState C} {N : ℕ}
    (h : OwnInjN st N) {k m : ℕ} (hk : k + 3 < N) (hm : m + 3 < N)
    (hkm : k ≠ m) : st.ptr k ≠ st.ptr m := by
  intro he
  have h0 : own st (k + 3) = own st (m + 3) := by
    simp [own]
    exact he
  have := h (k + 3) hk (m + 3) hm h0
  omega

lemma vals_butterflyPairStep_fst {C : Type} (uv : C × C) (a b : ℕ)
    (st : FFTState C) : vals (butterflyPairStep uv a b st) a = uv.1 := by
  simp [vals, butterflyPairStep]

lemma vals_butterflyPairStep_snd {C : Type} (uv : C × C) (a b : ℕ)
    (st : FFTState C) (hab : b ≠ a) (h12 : st.t2 ≠ st.t1) :
    vals (butterflyPairStep uv a b st) b = uv.2 := by
  simp [vals, butterflyPairStep, hab, h12]

lemma vals_butterflyPairStep_other {C : Type} (uv : C × C) (a b k : ℕ)
    (st : FFTState C) (hka : k ≠ a) (hkb : k ≠ b)
    (hp1 : st.ptr k ≠ st.t1) (hp2 : st.ptr k ≠ st.t2) :
    vals (butterflyPairStep uv a b st) k = vals st k := by
  simp [vals, butterflyPairStep, hka, hkb, hp1, hp2]

lemma vals_butterflySqrt2Step_fst {C : Type} (uvt : C × C × C) (a b : ℕ)
    (st : FFTState C) : vals (butterflySqrt2Step uvt a b st) a = uvt.1 := by
  simp [vals, butterflySqrt2Step]

lemma vals_butterflySqrt2Step_snd {C : Type} (uvt : C × C × C) (a b : ℕ)
    (st : FFTState C) (hab : b ≠ a) (h12 : st.t2 ≠ st.t1) :
    vals (butterflySqrt2Step uvt a b st) b = uvt.2.1 := by
  simp [vals, butterflySqrt2Step, hab, h12]

lemma vals_butterflySqrt2Step_other {C : Type} (uvt : C × C × C) (a b k : ℕ)
    (st : FFTState C) (hka : k ≠ a) (hkb : k ≠ b)
    (hp1 : st.ptr k ≠ st.t1) (hp2 : st.ptr k ≠ st.t2)
    (hp3 : st.ptr k ≠ st.temp) :
    vals (butterflySqrt2Step uvt a b st) k = vals st k := by
  simp [vals, butterflySqrt2Step, hka, hkb, hp1, hp2, hp3]

lemma vals_writeSlot_self {C : Type} (dst : ℕ) (x : C) (st : FFTState C) :
    vals (writeSlot dst x st) dst = x := by
  simp [vals, writeSlot]

lemma vals_writeSlot_other {C : Type} (dst k : ℕ) (x : C) (st : FFTState C)
    (hp : st.ptr k ≠ st.ptr dst) : vals (writeSlot dst x st) k = vals st k := by
  simp [vals, writeSlot, hp]

lemma vals_adjustSqrt2Step_self {C : Type} (rt : C × C) (dst : ℕ)
    (st : FFTState C) : vals (adjustSqrt2Step rt dst st) dst = rt.1 := by
  simp [vals, adjustSqrt2Step]

lemma vals_adjustSqrt2Step_other {C : Type} (rt : C × C) (dst k : ℕ)
    (st : FFTState C) (hp : st.ptr k ≠ st.ptr dst)
    (hp3 : st.ptr k ≠ st.temp) :
    vals (adjustSqrt2Step rt dst st) k = vals st k := by
  simp [vals, adjustSqrt2Step, hp, hp3]

lemma vals_swapSlots_left {C : Type} (a b : ℕ) (st : FFTState C) :
    vals (swapSlots a b st) a = vals st b := by
  simp [vals, swapSlots]

lemma vals_swapSlots_right {C : Type} (a b : ℕ) (st : FFTState C) (hba : b ≠ a) :
    vals (swapSlots a b st) b = vals st a := by
  simp [vals, swapSlots, hba]

lemma vals_swapSlots_other {C : Type} (a b k : ℕ) (st : FFTState C)
    (hka : k ≠ a) (hkb : k ≠ b) : vals (swapSlots a b st) k = vals st k := by
  simp [vals, swapSlots, hka, hkb]

/-! ## Two runs with equal slot values stay equal

The coefficient values a transform leaves in the slots of its frame set
depend only on the values those slots held before, never on the buffer
layout, the heap outside, or the scratch contents. -/

/-- Two states agree on the coefficient values of every slot in `Sl`. -/
def ValsEqOn {C : Type} (Sl : ℕ → Prop) (st1 st2 : FFTState C) : Prop :=
  ∀ k, Sl k → vals st1 k = vals st2 k

lemma writes_subset_slots (op : FFTOp) :
    ∀ s ∈ op.writesList, s ∈ op.slotsList := by
  cases op <;> simp [FFTOp.writesList, FFTOp.slotsList]

lemma execOp_valsEq {C : Type} (P : FFTPrims C) (op : FFTOp) (Sl : ℕ → Prop)
    (N : ℕ) (st1 st2 : FFTState C)
    (hslot : ∀ s ∈ op.slotsList, Sl s) (hok : op.distinctOk)
    (hSl : ∀ s, Sl s → s + 3 < N)
    (hinj1 : OwnInjN st1 N) (hinj2 : OwnInjN st2 N)
    (he : ValsEqOn Sl st1 st2) :
    ValsEqOn Sl (execOp P st1 op) (execOp P st2 op) := by
  cases op with
  | bfly a b i limbs w =>
      have hSa : Sl a := hslot a (by simp [FFTOp.slotsList])
      have hSb : Sl b := hslot b (by simp [FFTOp.slotsList])
      have hN : 1 < N := by have := hSl a hSa; omega
      have ea : vals st1 a = vals st2 a := he a hSa
      have eb : vals st1 b = vals st2 b := he b hSb
      intro k hk
      simp only [execOp]
      rw [ea, eb]
      by_cases hka : k = a
      · subst hka
        rw [vals_butterflyPairStep_fst, vals_butterflyPairStep_fst]
      by_cases hkb : k = b
      · subst hkb
        rw [vals_butterflyPairStep_snd _ _ _ _ hka
            (fun h => (ownInj_t1_ne_t2 hinj1 hN) h.symm),
          vals_butterflyPairStep_snd _ _ _ _ hka
            (fun h => (ownInj_t1_ne_t2 hinj2 hN) h.symm)]
      · have hkN : k + 3 < N := hSl k hk
        rw [vals_butterflyPairStep_other _ _ _ _ _ hka hkb
            (ownInj_ptr_ne_t1 hinj1 hkN) (ownInj_ptr_ne_t2 hinj1 hkN),
          vals_butterflyPairStep_other _ _ _ _ _ hka hkb
            (ownInj_ptr_ne_t1 hinj2 hkN) (ownInj_ptr_ne_t2 hinj2 hkN)]
        exact he k hk
  | bflyS a b i limbs w =>
      have hSa : Sl a := hslot a (by simp [FFTOp.slotsList])
      have hSb : Sl b := hslot b (by simp [FFTOp.slotsList])
      have hN : 1 < N := by have := hSl a hSa; omega
      have ea : vals st1 a = vals st2 a := he a hSa
      have eb : vals st1 b = vals st2 b := he b hSb
      intro k hk
      simp only [execOp]
      rw [ea, eb]
      by_cases hka : k = a
      · subst hka
        rw [vals_butterflySqrt2Step_fst, vals_butterflySqrt2Step_fst]
      by_cases hkb : k = b
      · subst hkb
        rw [vals_butterflySqrt2Step_snd _ _ _ _ hka
            (fun h => (ownInj_t1_ne_t2 hinj1 hN) h.symm),
          vals_butterflySqrt2Step_snd _ _ _ _ hka
            (fun h => (ownInj_t1_ne_t2 hinj2 hN) h.symm)]
      · have hkN : k + 3 < N := hSl k hk
        rw [vals_butterflySqrt2Step_other _ _ _ _ _ hka hkb
            (ownInj_ptr_ne_t1 hinj1 hkN) (ownInj_ptr_ne_t2 hinj1 hkN)
            (ownInj_ptr_ne_temp hinj1 hkN),
          vals_butterflySqrt2Step_other _ _ _ _ _ hka hkb
            (ownInj_ptr_ne_t1 hinj2 hkN) (ownInj_ptr_ne_t2 hinj2 hkN)
            (ownInj_ptr_ne_temp hinj2 hkN)]
        exact he k hk
  | bflyT a b limbs b1 b2 =>
      have hSa : Sl a := hslot a (by simp [FFTOp.slotsList])
      have hSb : Sl b := hslot b (by simp [FFTOp.slotsList])
      have hN : 1 < N := by have := hSl a hSa; omega
      have ea : vals st1 a = vals st2 a := he a hSa
      have eb : vals st1 b = vals st2 b := he b hSb
      intro k hk
      simp only [execOp]
      rw [ea, eb]
      by_cases hka : k = a
      · subst hka
        rw [vals_butterflyPairStep_fst, vals_butterflyPairStep_fst]
      by_cases hkb : k = b
      · subst hkb
        rw [vals_butterflyPairStep_snd _ _ _ _ hka
            (fun h => (ownInj_t1_ne_t2 hinj1 hN) h.symm),
          vals_butterflyPairStep_snd _ _ _ _ hka
            (fun h => (ownInj_t1_ne_t2 hinj2 hN) h.symm)]
      · have hkN : k + 3 < N := hSl k hk
        rw [vals_butterflyPairStep_other _ _ _ _ _ hka hkb
            (ownInj_ptr_ne_t1 hinj1 hkN) (ownInj_ptr_ne_t2 hinj1 hkN),
          vals_butterflyPairStep_other _ _ _ _ _ hka hkb
            (ownInj_ptr_ne_t1 hinj2 hkN) (ownInj_ptr_ne_t2 hinj2 hkN)]
        exact he k hk
  | addN dst src sz =>
      have hSd : Sl dst := hslot dst (by simp [FFTOp.slotsList])
      have hSs : Sl src := hslot src (by simp [FFTOp.slotsList])
      have ed : vals st1 dst = vals st2 dst := he dst hSd
      have es : vals st1 src = vals st2 src := he src hSs
      intro k hk
      simp only [execOp]
      rw [ed, es]
      by_cases hkd : k = dst
      · subst hkd
        rw [vals_writeSlot_self, vals_writeSlot_self]
      · have hkN : k + 3 < N := hSl k hk
        have hdN : dst + 3 < N := hSl dst hSd
        rw [vals_writeSlot_other _ _ _ _ (ownInj_ptr_inj hinj1 hkN hdN hkd),
          vals_writeSlot_other _ _ _ _ (ownInj_ptr_inj hinj2 hkN hdN hkd)]
        exact he k hk
  | adj dst src i limbs w =>
      have hSd : Sl dst := hslot dst (by simp [FFTOp.slotsList])
      have hSs : Sl src := hslot src (by simp [FFTOp.slotsList])
      have es : vals st1 src = vals st2 src := he src hSs
      intro k hk
      simp only [execOp]
      rw [es]
      by_cases hkd : k = dst
      · subst hkd
        rw [vals_writeSlot_self, vals_writeSlot_self]
      · have hkN : k + 3 < N := hSl k hk
        have hdN : dst + 3 < N := hSl dst hSd
        rw [vals_writeSlot_other _ _ _ _ (ownInj_ptr_inj hinj1 hkN hdN hkd),
          vals_writeSlot_other _ _ _ _ (ownInj_ptr_inj hinj2 hkN hdN hkd)]
        exact he k hk
  | adjS dst src i limbs w =>
      have hSd : Sl dst := hslot dst (by simp [FFTOp.slotsList])
      have hSs : Sl src := hslot src (by simp [FFTOp.slotsList])
      have es : vals st1 src = vals st2 src := he src hSs
      intro k hk
      simp only [execOp]
      rw [es]
      by_cases hkd : k = dst
      · subst hkd
        rw [vals_adjustSqrt2Step_self, vals_adjustSqrt2Step_self]
      · have hkN : k + 3 < N := hSl k hk
        have hdN : dst + 3 < N := hSl dst hSd
        rw [vals_adjustSqrt2Step_other _ _ _ _ (ownInj_ptr_inj hinj1 hkN hdN hkd)
            (ownInj_ptr_ne_temp hinj1 hkN),
          vals_adjustSqrt2Step_other _ _ _ _ (ownInj_ptr_inj hinj2 hkN hdN hkd)
            (ownInj_ptr_ne_temp hinj2 hkN)]
        exact he k hk
  | swapP a b =>
      have hSa : Sl a := hslot a (by simp [FFTOp.slotsList])
      have hSb : Sl b := hslot b (by simp [FFTOp.slotsList])
      intro k hk
      simp only [execOp]
      by_cases hka : k = a
      · subst hka
        rw [vals_swapSlots_left, vals_swapSlots_left]
        exact he b hSb
      by_cases hkb : k = b
      · subst hkb
        rw [vals_swapSlots_right _ _ _ hka, vals_swapSlots_right _ _ _ hka]
        exact he a hSa
      · rw [vals_swapSlots_other _ _ _ _ hka hkb,
          vals_swapSlots_other _ _ _ _ hka hkb]
        exact he k hk

lemma exec_valsEq {C : Type} (P : FFTPrims C) (ops : List FFTOp)
    (Sl : ℕ → Prop) (N : ℕ) (st1 st2 : FFTState C)
    (hslot : ∀ op ∈ ops, ∀ s ∈ FFTOp.slotsList op, Sl s)
    (hok : ∀ op ∈ ops, FFTOp.distinctOk op)
    (hSl : ∀ s, Sl s → s + 3 < N)
    (hinj1 : OwnInjN st1 N) (hinj2 : OwnInjN st2 N)
    (he : ValsEqOn Sl st1 st2) :
    ValsEqOn Sl (exec P ops st1) (exec P ops st2) := by
  induction ops generalizing st1 st2 with
  | nil => exact he
  | cons op rest ih =>
      have hmem : op ∈ op :: rest := List.mem_cons_self op rest
      have hOK : OpOKBelow N op := by
        refine ⟨hok op hmem, fun s hs => ?_⟩
        exact hSl s (hslot op hmem s (writes_subset_slots op s hs))
      exact ih (execOp P st1 op) (execOp P st2 op)
        (fun o ho => hslot o (List.mem_cons_of_mem op ho))
        (fun o ho => hok o (List.mem_cons_of_mem op ho))
        (ownInjN_of_perm (execOp_ownPerm P st1 op N hOK) hinj1)
        (ownInjN_of_perm (execOp_ownPerm P st2 op N hOK) hinj2)
        (execOp_valsEq P op Sl N st1 st2 (hslot op hmem) (hok op hmem) hSl
          hinj1 hinj2 he)

/-! ## Bit reversal and transform depth -/

/-- Modelled from the spec: the external bit-index reversal function
`n_revbin(x, d)` (missing from the source tree): reverse the low `d`
bits of `x`. -/
def n_revbin : ℕ → ℕ → ℕ
  | _, 0 => 0
  | x, d + 1 => x % 2 * 2 ^ d + n_revbin (x / 2) d

lemma n_revbin_lt (x d : ℕ) : n_revbin x d < 2 ^ d := by
  induction d generalizing x with
  | zero => simp [n_revbin]
  | succ d ih =>
      have h1 : x % 2 ≤ 1 := by omega
      have h2 : n_revbin (x / 2) d < 2 ^ d := ih (x / 2)
      have h3 : x % 2 * 2 ^ d ≤ 2 ^ d := by
        calc x % 2 * 2 ^ d ≤ 1 * 2 ^ d := Nat.mul_le_mul_right _ h1
        _ = 2 ^ d := one_mul _
      calc n_revbin x (d + 1) = x % 2 * 2 ^ d + n_revbin (x / 2) d := rfl
      _ < 2 ^ d + 2 ^ d := by omega
      _ = 2 ^ (d + 1) := by ring

/-- Pushing a new top bit through a bit reversal. -/
lemma n_revbin_top (d c y : ℕ) (hc : c ≤ 1) (hy : y < 2 ^ d) :
    n_revbin (c * 2 ^ d + y) (d + 1) = n_revbin y d * 2 + c := by
  induction d generalizing c y with
  | zero =>
      interval_cases y
      interval_cases c <;> simp [n_revbin]
  | succ d ih =>
      have hmod : (c * 2 ^ (d + 1) + y) % 2 = y % 2 := by
        have : c * 2 ^ (d + 1) = c * 2 ^ d * 2 := by ring
        omega
      have hdiv : (c * 2 ^ (d + 1) + y) / 2 = c * 2 ^ d + y / 2 := by
        have h2 : c * 2 ^ (d + 1) + y = (c * 2 ^ d + y / 2) * 2 + y % 2 := by
          have : c * 2 ^ (d + 1) = c * 2 ^ d * 2 := by ring
          omega
        omega
      have hy2 : y / 2 < 2 ^ d := by
        have : 2 ^ (d + 1) = 2 ^ d * 2 := by ring
        omega
      calc n_revbin (c * 2 ^ (d + 1) + y) (d + 2)
          = (c * 2 ^ (d + 1) + y) % 2 * 2 ^ (d + 1)
            + n_revbin ((c * 2 ^ (d + 1) + y) / 2) (d + 1) := rfl
      _ = y % 2 * 2 ^ (d + 1) + n_revbin (c * 2 ^ d + y / 2) (d + 1) := by
          rw [hmod, hdiv]
      _ = y % 2 * 2 ^ (d + 1) + (n_revbin (y / 2) d * 2 + c) := by
          rw [ih c (y / 2) hc hy2]
      _ = (y % 2 * 2 ^ d + n_revbin (y / 2) d) * 2 + c := by ring
      _ = n_revbin y (d + 1) * 2 + c := rfl

/-- Bit reversal of the low `d` bits is an involution below `2^d`. -/
lemma n_revbin_involutive (d : ℕ) : ∀ x < 2 ^ d, n_revbin (n_revbin x d) d = x := by
  induction d with
  | zero =>
      intro x hx
      interval_cases x
      simp [n_revbin]
  | succ d ih =>
      intro x hx
      have hc : x % 2 ≤ 1 := by omega
      have hy : n_revbin (x / 2) d < 2 ^ d := n_revbin_lt _ _
      have hx2 : x / 2 < 2 ^ d := by
        have : 2 ^ (d + 1) = 2 ^ d * 2 := by ring
        omega
      calc n_revbin (n_revbin x (d + 1)) (d + 1)
          = n_revbin (x % 2 * 2 ^ d + n_revbin (x / 2) d) (d + 1) := rfl
      _ = n_revbin (n_revbin (x / 2) d) d * 2 + x % 2 := n_revbin_top d _ _ hc hy
      _ = x / 2 * 2 + x % 2 := by rw [ih (x / 2) hx2]
      _ = x := by omega

/-- The depth computation of `fft_mfa_truncate_sqrt2`: starting from `d`,
increment while `2^d < m` (translated with fuel; the C loop terminates
whenever the fuel suffices, which the wrapper guarantees). -/
def fftDepthAux : ℕ → ℕ → ℕ → ℕ
  | 0, _, d => d
  | fuel + 1, m, d => if 2 ^ d < m then fftDepthAux fuel m (d + 1) else d

/-- `while ((1 << depth) < m) depth++` starting at `depth = 0`. -/
def fftDepth (m : ℕ) : ℕ := fftDepthAux m m 0

lemma fftDepthAux_pow (k : ℕ) : ∀ fuel d, d ≤ k → k - d ≤ fuel →
    fftDepthAux fuel (2 ^ k) d = k := by
  intro fuel
  induction fuel with
  | zero =>
      intro d hd hf
      have : d = k := by omega
      simpa [fftDepthAux] using this
  | succ fuel ih =>
      intro d hd hf
      by_cases h : 2 ^ d < 2 ^ k
      · have hdk : d < k := by
          by_contra hge
          push_neg at hge
          have : d = k := by omega
          subst this
          omega
        simp only [fftDepthAux, if_pos h]
        exact ih (d + 1) (by omega) (by omega)
      · have hdk : k ≤ d := by
          by_contra hlt
          push_neg at hlt
          exact h (Nat.pow_lt_pow_right (by omega) hlt)
        have : d = k := by omega
        simp [fftDepthAux, h, this]

/-- On a power of two the computed depth is the exponent. -/
lemma fftDepth_pow (k : ℕ) : fftDepth (2 ^ k) = k := by
  have hk : k ≤ 2 ^ k := Nat.le_of_lt (Nat.lt_two_pow k)
  exact fftDepthAux_pow k (2 ^ k) 0 (by omega) (by omega)

/-! ## The transform compilers

Each C transform is translated into a compiler from its integer
parameters to the list of primitive operations it performs, in program
order.  Recursions of the C code on `n` are translated with a fuel
argument; every entry-point wrapper supplies fuel `n`, which suffices
since the recursions halve `n`. -/

/-- `body 0 ++ body 1 ++ ... ++ body (count-1)`: a `for` loop emitting
operations. -/
def passLoop (body : ℕ → List FFTOp) : ℕ → List FFTOp
  | 0 => []
  | k + 1 => passLoop body k ++ body k

lemma mem_passLoop {body : ℕ → List FFTOp} {n : ℕ} {op : FFTOp} :
    op ∈ passLoop body n ↔ ∃ k, k < n ∧ op ∈ body k := by
  induction n with
  | zero => simp [passLoop]
  | succ n ih =>
      simp only [passLoop, List.mem_append, ih]
      constructor
      · rintro (⟨k, hk, hop⟩ | hop)
        · exact ⟨k, by omega, hop⟩
        · exact ⟨n, by omega, hop⟩
      · rintro ⟨k, hk, hop⟩
        by_cases hkn : k = n
        · subst hkn
          exact Or.inr hop
        · exact Or.inl ⟨k, by omega, hop⟩

/-- The untwiddled butterfly layer of `fft_radix2_twiddle` and
`fft_truncate1_twiddle` (and, in the spec-modelled plain transform,
of `fft_radix2`): for each `i < n`, `fft_butterfly` on slots `o + i*is`
and `o + (n+i)*is` with index `i`, followed by the `SWAP_PTRS` pair. -/
def butterflyLayerOps (o is n limbs w : ℕ) : List FFTOp :=
  passLoop (fun i => [FFTOp.bfly (o + i * is) (o + (n + i) * is) i limbs w]) n

/-- The fold layer of the `trunc ≤ n` case of `fft_truncate1_twiddle`:
for each `i < n`, `mpn_add_n(ii[i*is], ii[i*is], ii[(i+n)*is], limbs+1)`. -/
def foldLayerOps (o is n limbs : ℕ) : List FFTOp :=
  passLoop (fun i => [FFTOp.addN (o + i * is) (o + (i + n) * is) (limbs + 1)]) n

/-- The bit-reversal reorder loop: for each `j < count`, swap slots
`start + j*step` and `start + n_revbin j d * step` when
`j < n_revbin j d`. -/
def bitrevOps (start step d count : ℕ) : List FFTOp :=
  passLoop (fun j =>
    if j < n_revbin j d
    then [FFTOp.swapP (start + j * step) (start + n_revbin j d * step)]
    else []) count

/-- Fueled translation of `fft_radix2_twiddle` from `src/mpc/src/abs.c`
(lines 120-150), acting on slots `o, o+is, ..., o+(2n-1)*is`. -/
def fft_radix2_twiddle_f (W : ℕ) :
    ℕ → ℕ → ℕ → ℕ → ℕ → ℕ → ℕ → ℕ → ℕ → List FFTOp
  | 0, _, _, _, _, _, _, _, _ => []
  | fuel + 1, o, is, n, w, ws, r, c, rs =>
    let limbs := w * n / W
    if n = 1 then
      [FFTOp.bflyT o (o + is) limbs (r * c * ws) ((r * c + rs * c) * ws)]
    else
      butterflyLayerOps o is n limbs w ++
      fft_radix2_twiddle_f W fuel o is (n / 2) (2 * w) ws r c (2 * rs) ++
      fft_radix2_twiddle_f W fuel (o + n * is) is (n / 2) (2 * w) ws (r + rs) c
        (2 * rs)

/-- `fft_radix2_twiddle(ii + o, is, n, w, t1, t2, ws, r, c, rs)`. -/
def fft_radix2_twiddle_ops (W o is n w ws r c rs : ℕ) : List FFTOp :=
  fft_radix2_twiddle_f W n o is n w ws r c rs

/-- Fueled translation of `fft_truncate1_twiddle` from
`src/mpc/src/abs.c` (lines 157-186). -/
def fft_truncate1_twiddle_f (W : ℕ) :
    ℕ → ℕ → ℕ → ℕ → ℕ → ℕ → ℕ → ℕ → ℕ → ℕ → List FFTOp
  | 0, _, _, _, _, _, _, _, _, _ => []
  | fuel + 1, o, is, n, w, ws, r, c, rs, trunc =>
    let limbs := w * n / W
    if trunc = 2 * n then
      fft_radix2_twiddle_ops W o is n w ws r c rs
    else if trunc ≤ n then
      foldLayerOps o is n limbs ++
      fft_truncate1_twiddle_f W fuel o is (n / 2) (2 * w) ws r c (2 * rs) trunc
    else
      butterflyLayerOps o is n limbs w ++
      fft_radix2_twiddle_ops W o is (n / 2) (2 * w) ws r c (2 * rs) ++
      fft_truncate1_twiddle_f W fuel (o + n * is) is (n / 2) (2 * w) ws (r + rs)
        c (2 * rs) (trunc - n)

/-- `fft_truncate1_twiddle(ii + o, is, n, w, t1, t2, ws, r, c, rs, trunc)`. -/
def fft_truncate1_twiddle_ops (W o is n w ws r c rs trunc : ℕ) : List FFTOp :=
  fft_truncate1_twiddle_f W n o is n w ws r c rs trunc

/-- Modelled from the spec: the plain (untwiddled) base transform
`fft_radix2(ii + o, n, w, t1, t2)`, an external collaborator missing
from the source tree.  Per the spec it is the untwiddled recursive
radix-2 transform of a power-of-two-length vector: one elementary
butterfly at the base, otherwise one untwiddled butterfly layer
followed by the two half-length recursions. -/
def fft_radix2_f (W : ℕ) : ℕ → ℕ → ℕ → ℕ → List FFTOp
  | 0, _, _, _ => []
  | fuel + 1, o, n, w =>
    let limbs := w * n / W
    if n = 1 then [FFTOp.bfly o (o + 1) 0 limbs w]
    else
      butterflyLayerOps o 1 n limbs w ++
      fft_radix2_f W fuel o (n / 2) (2 * w) ++
      fft_radix2_f W fuel (o + n) (n / 2) (2 * w)

/-- Wrapper for the plain base transform. -/
def fft_radix2_ops (W o n w : ℕ) : List FFTOp :=
  fft_radix2_f W n o n w

/-- The sqrt2 layer of the column pass of `fft_mfa_truncate_sqrt2` and
its outer variant (`src/mpc/src/abs.c` lines 250-282 and 362-394) for
column `i`: the first loop runs `j = i, i+n1, ...` below `trunc - 2n`
and performs a two-output butterfly between slots `j` and `2n + j`; the
second loop continues to `2n` and performs a one-sided adjust writing
slot `j + 2n`.  When the bit-weight `w` is odd, the butterfly dispatches
on the parity of `j` (sqrt2 butterfly for odd `j`, plain butterfly at
halved index for even `j`) and the adjust dispatches on the parity of
the column index `i`; when `w` is even the plain operations at halved
weight are used throughout.  The C code hoists the `w`-parity test out
of the loops; the emitted operation sequence is identical. -/
def sqrt2LayerLoop (n w n1 trunc limbs i : ℕ) : ℕ → ℕ → List FFTOp
  | 0, _ => []
  | fuel + 1, j =>
    if j < trunc - 2 * n then
      (if w % 2 = 1 then
        if j % 2 = 1 then [FFTOp.bflyS j (2 * n + j) j limbs w]
        else [FFTOp.bfly j (2 * n + j) (j / 2) limbs w]
      else [FFTOp.bfly j (2 * n + j) j limbs (w / 2)]) ++
      sqrt2LayerLoop n w n1 trunc limbs i fuel (j + n1)
    else if j < 2 * n then
      (if w % 2 = 1 then
        if i % 2 = 1 then [FFTOp.adjS (j + 2 * n) j j limbs w]
        else [FFTOp.adj (j + 2 * n) j (j / 2) limbs w]
      else [FFTOp.adj (j + 2 * n) j j limbs (w / 2)]) ++
      sqrt2LayerLoop n w n1 trunc limbs i fuel (j + n1)
    else []

/-- The sqrt2 layer for column `i`, starting at `j = i`. -/
def sqrt2LayerOps (n w n1 trunc limbs i : ℕ) : List FFTOp :=
  sqrt2LayerLoop n w n1 trunc limbs i (2 * n + 1) i

/-- The column pass on the left half of `fft_mfa_truncate_sqrt2` (and of
the outer variant, where it is identical): for each column `i < n1`,
the sqrt2 layer, then a length-`n2` twiddled column transform, then the
bit-reversal reorder of the column. -/
def mfaLeftColOps (W n w n1 trunc : ℕ) : List FFTOp :=
  passLoop (fun i =>
    sqrt2LayerOps n w n1 trunc (n * w / W) i ++
    fft_radix2_twiddle_ops W i n1 (2 * n / n1 / 2) (w * n1) w 0 i 1 ++
    bitrevOps i n1 (fftDepth (2 * n / n1)) (2 * n / n1)) n1

/-- The row pass on the left half of `fft_mfa_truncate_sqrt2`: for each
row `i < n2`, the plain base transform on the row, then the bit-reversal
reorder of the row. -/
def mfaLeftRowOps (W n w n1 : ℕ) : List FFTOp :=
  passLoop (fun i =>
    fft_radix2_ops W (i * n1) (n1 / 2) (w * (2 * n / n1)) ++
    bitrevOps (i * n1) 1 (fftDepth n1) n1) (2 * n / n1)

/-- The column pass on the right half (slots `2n..4n`): for each column
`i < n1`, a truncated twiddled column transform of truncated length
`trunc2 = (trunc - 2n)/n1`, then the bit-reversal reorder. -/
def mfaRightColOps (W n w n1 trunc : ℕ) : List FFTOp :=
  passLoop (fun i =>
    fft_truncate1_twiddle_ops W (2 * n + i) n1 (2 * n / n1 / 2) (w * n1) w 0 i 1
      ((trunc - 2 * n) / n1) ++
    bitrevOps (2 * n + i) n1 (fftDepth (2 * n / n1)) (2 * n / n1)) n1

/-- The row pass on the right half: for `s < trunc2`, the plain base
transform on row `n_revbin s depth`, then the bit-reversal reorder of
that row. -/
def mfaRightRowOps (W n w n1 trunc : ℕ) : List FFTOp :=
  passLoop (fun s =>
    fft_radix2_ops W (2 * n + n_revbin s (fftDepth (2 * n / n1)) * n1) (n1 / 2)
      (w * (2 * n / n1)) ++
    bitrevOps (2 * n + n_revbin s (fftDepth (2 * n / n1)) * n1) 1 (fftDepth n1)
      n1) ((trunc - 2 * n) / n1)

/-- Translation of `fft_mfa_truncate_sqrt2` from `src/mpc/src/abs.c`
(lines 230-335): left column pass, left row pass, right column pass,
right row pass. -/
def fft_mfa_truncate_sqrt2_ops (W n w n1 trunc : ℕ) : List FFTOp :=
  mfaLeftColOps W n w n1 trunc ++ mfaLeftRowOps W n w n1 ++
  mfaRightColOps W n w n1 trunc ++ mfaRightRowOps W n w n1 trunc

/-- Translation of `fft_mfa_truncate_sqrt2_outer` from
`src/mpc/src/abs.c` (lines 341-425): left column pass, then right
column pass; no row passes. -/
def fft_mfa_truncate_sqrt2_outer_ops (W n w n1 trunc : ℕ) : List FFTOp :=
  mfaLeftColOps W n w n1 trunc ++ mfaRightColOps W n w n1 trunc

/-! ## Basic properties of the compilers -/

lemma radix2_twiddle_f_zero (W : ℕ) : ∀ fuel o is w ws r c rs,
    fft_radix2_twiddle_f W fuel o is 0 w ws r c rs = [] := by
  intro fuel
  induction fuel with
  | zero => intro o is w ws r c rs; rfl
  | succ fuel ih =>
      intro o is w ws r c rs
      simp only [fft_radix2_twiddle_f, if_neg (by omega : ¬ (0 : ℕ) = 1)]
      rw [show (0 : ℕ) / 2 = 0 from rfl, ih, ih]
      rfl

lemma truncate1_f_zero (W : ℕ) : ∀ fuel o is w ws r c rs trunc,
    fft_truncate1_twiddle_f W fuel o is 0 w ws r c rs trunc = [] := by
  intro fuel
  induction fuel with
  | zero => intro o is w ws r c rs trunc; rfl
  | succ fuel ih =>
      intro o is w ws r c rs trunc
      by_cases h : trunc = 0
      · subst h
        simp only [fft_truncate1_twiddle_f, if_pos (by omega : (0 : ℕ) = 2 * 0)]
        rfl
      · simp only [fft_truncate1_twiddle_f,
          if_neg (by omega : ¬ trunc = 2 * 0), if_neg (by omega : ¬ trunc ≤ 0)]
        rw [show (0 : ℕ) / 2 = 0 from rfl, ih]
        rfl

lemma radix2_f_zero (W : ℕ) : ∀ fuel o w,
    fft_radix2_f W fuel o 0 w = [] := by
  intro fuel
  induction fuel with
  | zero => intro o w; rfl
  | succ fuel ih =>
      intro o w
      simp only [fft_radix2_f, if_neg (by omega : ¬ (0 : ℕ) = 1)]
      rw [show (0 : ℕ) / 2 = 0 from rfl, ih, ih]
      rfl

/-- Any sufficient fuel computes the same operations as the wrapper. -/
lemma radix2_twiddle_f_eq_ops (W : ℕ) (n : ℕ) :
    ∀ fuel o is w ws r c rs, 0 < n → n ≤ fuel →
    fft_radix2_twiddle_f W fuel o is n w ws r c rs =
      fft_radix2_twiddle_ops W o is n w ws r c rs := by
  induction n using Nat.strong_induction_on with
  | _ n IH =>
      intro fuel o is w ws r c rs hn hf
      obtain ⟨k, rfl⟩ : ∃ k, fuel = k + 1 := ⟨fuel - 1, by omega⟩
      obtain ⟨m, rfl⟩ : ∃ m, n = m + 1 := ⟨n - 1, by omega⟩
      by_cases h1 : m + 1 = 1
      · rw [show m = 0 by omega]
        rfl
      · have hm : 1 ≤ m := by omega
        have hhalf : (m + 1) / 2 < m + 1 := Nat.div_lt_self hn (by omega)
        have hhalf0 : 0 < (m + 1) / 2 := by omega
        simp only [fft_radix2_twiddle_ops, fft_radix2_twiddle_f, if_neg h1]
        rw [IH ((m + 1) / 2) hhalf k o is (2 * w) ws r c (2 * rs) hhalf0
            (by omega),
          IH ((m + 1) / 2) hhalf m o is (2 * w) ws r c (2 * rs) hhalf0
            (by omega),
          IH ((m + 1) / 2) hhalf k (o + (m + 1) * is) is (2 * w) ws (r + rs) c
            (2 * rs) hhalf0 (by omega),
          IH ((m + 1) / 2) hhalf m (o + (m + 1) * is) is (2 * w) ws (r + rs) c
            (2 * rs) hhalf0 (by omega)]

lemma truncate1_f_eq_ops (W : ℕ) (n : ℕ) :
    ∀ fuel o is w ws r c rs trunc, 0 < n → n ≤ fuel →
    fft_truncate1_twiddle_f W fuel o is n w ws r c rs trunc =
      fft_truncate1_twiddle_ops W o is n w ws r c rs trunc := by
  induction n using Nat.strong_induction_on with
  | _ n IH =>
      intro fuel o is w ws r c rs trunc hn hf
      obtain ⟨k, rfl⟩ : ∃ k, fuel = k + 1 := ⟨fuel - 1, by omega⟩
      obtain ⟨m, rfl⟩ : ∃ m, n = m + 1 := ⟨n - 1, by omega⟩
      by_cases ht : trunc = 2 * (m + 1)
      · simp only [fft_truncate1_twiddle_ops, fft_truncate1_twiddle_f,
          if_pos ht]
      by_cases ht2 : trunc ≤ m + 1
      · simp only [fft_truncate1_twiddle_ops, fft_truncate1_twiddle_f,
          if_neg ht, if_pos ht2]
        by_cases hm : m = 0
        · subst hm
          rw [show (1 : ℕ) / 2 = 0 from rfl, truncate1_f_zero, truncate1_f_zero]
        · have hhalf : (m + 1) / 2 < m + 1 := Nat.div_lt_self hn (by omega)
          have hhalf0 : 0 < (m + 1) / 2 := by omega
          rw [IH ((m + 1) / 2) hhalf k o is (2 * w) ws r c (2 * rs) trunc
              hhalf0 (by omega),
            IH ((m + 1) / 2) hhalf m o is (2 * w) ws r c (2 * rs) trunc
              hhalf0 (by omega)]
      · simp only [fft_truncate1_twiddle_ops, fft_truncate1_twiddle_f,
          if_neg ht, if_neg ht2]
        by_cases hm : m = 0
        · subst hm
          rw [show (1 : ℕ) / 2 = 0 from rfl, truncate1_f_zero, truncate1_f_zero]
        · have hhalf : (m + 1) / 2 < m + 1 := Nat.div_lt_self hn (by omega)
          have hhalf0 : 0 < (m + 1) / 2 := by omega
          rw [IH ((m + 1) / 2) hhalf k (o + (m + 1) * is) is (2 * w) ws (r + rs)
              c (2 * rs) (trunc - (m + 1)) hhalf0 (by omega),
            IH ((m + 1) / 2) hhalf m (o + (m + 1) * is) is (2 * w) ws (r + rs)
              c (2 * rs) (trunc - (m + 1)) hhalf0 (by omega)]

lemma radix2_f_eq_ops (W : ℕ) (n : ℕ) :
    ∀ fuel o w, 0 < n → n ≤ fuel →
    fft_radix2_f W fuel o n w = fft_radix2_ops W o n w := by
  induction n using Nat.strong_induction_on with
  | _ n IH =>
      intro fuel o w hn hf
      obtain ⟨k, rfl⟩ : ∃ k, fuel = k + 1 := ⟨fuel - 1, by omega⟩
      obtain ⟨m, rfl⟩ : ∃ m, n = m + 1 := ⟨n - 1, by omega⟩
      by_cases h1 : m + 1 = 1
      · rw [show m = 0 by omega]
        rfl
      · have hm : 1 ≤ m := by omega
        have hhalf : (m + 1) / 2 < m + 1 := Nat.div_lt_self hn (by omega)
        have hhalf0 : 0 < (m + 1) / 2 := by omega
        simp only [fft_radix2_ops, fft_radix2_f, if_neg h1]
        rw [IH ((m + 1) / 2) hhalf k o (2 * w) hhalf0 (by omega),
          IH ((m + 1) / 2) hhalf m o (2 * w) hhalf0 (by omega),
          IH ((m + 1) / 2) hhalf k (o + (m + 1)) (2 * w) hhalf0 (by omega),
          IH ((m + 1) / 2) hhalf m (o + (m + 1)) (2 * w) hhalf0 (by omega)]

/-! ## Slot ranges and non-aliasing of the compiled operations -/

lemma grid_lt {i k n1 n2 tot : ℕ} (hi : i < n1) (hk : k < n2)
    (h : n1 * n2 = tot) : i + k * n1 < tot := by
  have hn2 : 1 ≤ n2 := by omega
  have hk' : k ≤ n2 - 1 := by omega
  have h1 : k * n1 ≤ (n2 - 1) * n1 := Nat.mul_le_mul_right n1 hk'
  have h2 : n1 + (n2 - 1) * n1 = n1 * n2 := by
    obtain ⟨m, rfl⟩ : ∃ m, n2 = m + 1 := ⟨n2 - 1, by omega⟩
    simp only [Nat.add_sub_cancel]
    ring
  omega

lemma mem_butterflyLayerOps {o is n limbs w : ℕ} {op : FFTOp}
    (h : op ∈ butterflyLayerOps o is n limbs w) :
    ∃ i, i < n ∧ op = FFTOp.bfly (o + i * is) (o + (n + i) * is) i limbs w := by
  rw [butterflyLayerOps, mem_passLoop] at h
  obtain ⟨i, hi, hop⟩ := h
  exact ⟨i, hi, by simpa using hop⟩

lemma mem_foldLayerOps {o is n limbs : ℕ} {op : FFTOp}
    (h : op ∈ foldLayerOps o is n limbs) :
    ∃ i, i < n ∧ op = FFTOp.addN (o + i * is) (o + (i + n) * is) (limbs + 1) := by
  rw [foldLayerOps, mem_passLoop] at h
  obtain ⟨i, hi, hop⟩ := h
  exact ⟨i, hi, by simpa using hop⟩

lemma mem_bitrevOps {start step d count : ℕ} {op : FFTOp}
    (h : op ∈ bitrevOps start step d count) :
    ∃ j, j < count ∧ j < n_revbin j d ∧
      op = FFTOp.swapP (start + j * step) (start + n_revbin j d * step) := by
  rw [bitrevOps, mem_passLoop] at h
  obtain ⟨j, hj, hop⟩ := h
  by_cases hlt : j < n_revbin j d
  · rw [if_pos hlt] at hop
    exact ⟨j, hj, hlt, by simpa using hop⟩
  · rw [if_neg hlt] at hop
    exact absurd hop (List.not_mem_nil op)

/-- Every operation of `fft_radix2_twiddle` acts on slots
`o + k*is` with `k < 2n`, and its butterflies pair two distinct slots. -/
lemma radix2_twiddle_f_ok (W : ℕ) : ∀ fuel o is n w ws r c rs, 1 ≤ is →
    ∀ op ∈ fft_radix2_twiddle_f W fuel o is n w ws r c rs,
    (∀ s ∈ FFTOp.slotsList op, ∃ k, k < 2 * n ∧ s = o + k * is) ∧
      FFTOp.distinctOk op := by
  intro fuel
  induction fuel with
  | zero => intro o is n w ws r c rs his op hop; exact absurd hop (List.not_mem_nil op)
  | succ fuel ih =>
      intro o is n w ws r c rs his op hop
      by_cases h1 : n = 1
      · subst h1
        simp only [fft_radix2_twiddle_f, eq_self_iff_true, if_true,
          List.mem_singleton] at hop
        subst hop
        constructor
        · intro s hs
          simp only [FFTOp.slotsList, List.mem_cons, List.mem_singleton] at hs
          rcases hs with hs | hs | hs
          · exact ⟨0, by omega, by omega⟩
          · exact ⟨1, by omega, by omega⟩
          · exact absurd hs (List.not_mem_nil s)
        · simp only [FFTOp.distinctOk]
          omega
      · simp only [fft_radix2_twiddle_f, if_neg h1, List.mem_append] at hop
        rcases hop with (hop | hop) | hop
        · obtain ⟨i, hi, rfl⟩ := mem_butterflyLayerOps hop
          constructor
          · intro s hs
            simp only [FFTOp.slotsList, List.mem_cons, List.mem_singleton] at hs
            rcases hs with hs | hs | hs
            · exact ⟨i, by omega, hs.symm ▸ rfl⟩
            · exact ⟨n + i, by omega, hs.symm ▸ rfl⟩
            · exact absurd hs (List.not_mem_nil s)
          · simp only [FFTOp.distinctOk]
            intro he
            have h2 : i * is < (n + i) * is :=
              mul_lt_mul_of_pos_right (by omega) (by omega)
            omega
        · obtain ⟨hs, hd⟩ := ih o is (n / 2) (2 * w) ws r c (2 * rs) his op hop
          refine ⟨fun s hss => ?_, hd⟩
          obtain ⟨k, hk, rfl⟩ := hs s hss
          exact ⟨k, by omega, rfl⟩
        · obtain ⟨hs, hd⟩ := ih (o + n * is) is (n / 2) (2 * w) ws (r + rs) c
            (2 * rs) his op hop
          refine ⟨fun s hss => ?_, hd⟩
          obtain ⟨k, hk, rfl⟩ := hs s hss
          refine ⟨n + k, by omega, ?_⟩
          rw [Nat.add_mul]
          omega

lemma radix2_twiddle_ops_ok (W o is n w ws r c rs : ℕ) (his : 1 ≤ is) :
    ∀ op ∈ fft_radix2_twiddle_ops W o is n w ws r c rs,
    (∀ s ∈ FFTOp.slotsList op, ∃ k, k < 2 * n ∧ s = o + k * is) ∧
      FFTOp.distinctOk op :=
  radix2_twiddle_f_ok W n o is n w ws r c rs his

/-- Every operation of `fft_truncate1_twiddle` acts on slots
`o + k*is` with `k < 2n`, and its butterflies pair two distinct slots. -/
lemma truncate1_f_ok (W : ℕ) : ∀ fuel o is n w ws r c rs trunc, 1 ≤ is →
    ∀ op ∈ fft_truncate1_twiddle_f W fuel o is n w ws r c rs trunc,
    (∀ s ∈ FFTOp.slotsList op, ∃ k, k < 2 * n ∧ s = o + k * is) ∧
      FFTOp.distinctOk op := by
  intro fuel
  induction fuel with
  | zero => intro o is n w ws r c rs trunc his op hop; exact absurd hop (List.not_mem_nil op)
  | succ fuel ih =>
      intro o is n w ws r c rs trunc his op hop
      by_cases ht : trunc = 2 * n
      · simp only [fft_truncate1_twiddle_f, if_pos ht] at hop
        exact radix2_twiddle_ops_ok W o is n w ws r c rs his op hop
      by_cases ht2 : trunc ≤ n
      · simp only [fft_truncate1_twiddle_f, if_neg ht, if_pos ht2,
          List.mem_append] at hop
        rcases hop with hop | hop
        · obtain ⟨i, hi, rfl⟩ := mem_foldLayerOps hop
          constructor
          · intro s hs
            simp only [FFTOp.slotsList, List.mem_cons, List.mem_singleton] at hs
            rcases hs with hs | hs | hs
            · exact ⟨i, by omega, hs.symm ▸ rfl⟩
            · exact ⟨i + n, by omega, hs.symm ▸ rfl⟩
            · exact absurd hs (List.not_mem_nil s)
          · simp only [FFTOp.distinctOk]
        · obtain ⟨hs, hd⟩ := ih o is (n / 2) (2 * w) ws r c (2 * rs) trunc his
            op hop
          refine ⟨fun s hss => ?_, hd⟩
          obtain ⟨k, hk, rfl⟩ := hs s hss
          exact ⟨k, by omega, rfl⟩
      · simp only [fft_truncate1_twiddle_f, if_neg ht, if_neg ht2,
          List.mem_append] at hop
        rcases hop with (hop | hop) | hop
        · obtain ⟨i, hi, rfl⟩ := mem_butterflyLayerOps hop
          constructor
          · intro s hs
            simp only [FFTOp.slotsList, List.mem_cons, List.mem_singleton] at hs
            rcases hs with hs | hs | hs
            · exact ⟨i, by omega, hs.symm ▸ rfl⟩
            · exact ⟨n + i, by omega, hs.symm ▸ rfl⟩
            · exact absurd hs (List.not_mem_nil s)
          · simp only [FFTOp.distinctOk]
            intro he
            have h2 : i * is < (n + i) * is :=
              mul_lt_mul_of_pos_right (by omega) (by omega)
            omega
        · obtain ⟨hs, hd⟩ := radix2_twiddle_ops_ok W o is (n / 2) (2 * w) ws r c
            (2 * rs) his op hop
          refine ⟨fun s hss => ?_, hd⟩
          obtain ⟨k, hk, rfl⟩ := hs s hss
          exact ⟨k, by omega, rfl⟩
        · obtain ⟨hs, hd⟩ := ih (o + n * is) is (n / 2) (2 * w) ws (r + rs) c
            (2 * rs) (trunc - n) his op hop
          refine ⟨fun s hss => ?_, hd⟩
          obtain ⟨k, hk, rfl⟩ := hs s hss
          refine ⟨n + k, by omega, ?_⟩
          rw [Nat.add_mul]
          omega

lemma truncate1_ops_ok (W o is n w ws r c rs trunc : ℕ) (his : 1 ≤ is) :
    ∀ op ∈ fft_truncate1_twiddle_ops W o is n w ws r c rs trunc,
    (∀ s ∈ FFTOp.slotsList op, ∃ k, k < 2 * n ∧ s = o + k * is) ∧
      FFTOp.distinctOk op :=
  truncate1_f_ok W n o is n w ws r c rs trunc his

/-- Every operation of the plain base transform acts on slots `o + k`
with `k < 2n`, pairing distinct slots. -/
lemma radix2_f_ok (W : ℕ) : ∀ fuel o n w,
    ∀ op ∈ fft_radix2_f W fuel o n w,
    (∀ s ∈ FFTOp.slotsList op, ∃ k, k < 2 * n ∧ s = o + k) ∧
      FFTOp.distinctOk op := by
  intro fuel
  induction fuel with
  | zero => intro o n w op hop; exact absurd hop (List.not_mem_nil op)
  | succ fuel ih =>
      intro o n w op hop
      by_cases h1 : n = 1
      · subst h1
        simp only [fft_radix2_f, eq_self_iff_true, if_true,
          List.mem_singleton] at hop
        subst hop
        constructor
        · intro s hs
          simp only [FFTOp.slotsList, List.mem_cons, List.mem_singleton] at hs
          rcases hs with hs | hs | hs
          · exact ⟨0, by omega, by omega⟩
          · exact ⟨1, by omega, by omega⟩
          · exact absurd hs (List.not_mem_nil s)
        · simp only [FFTOp.distinctOk]
          omega
      · simp only [fft_radix2_f, if_neg h1, List.mem_append] at hop
        rcases hop with (hop | hop) | hop
        · obtain ⟨i, hi, rfl⟩ := mem_butterflyLayerOps hop
          constructor
          · intro s hs
            simp only [FFTOp.slotsList, List.mem_cons, List.mem_singleton] at hs
            rcases hs with hs | hs | hs
            · exact ⟨i, by omega, by omega⟩
            · exact ⟨n + i, by omega, by omega⟩
            · exact absurd hs (List.not_mem_nil s)
          · simp only [FFTOp.distinctOk]
            omega
        · obtain ⟨hs, hd⟩ := ih o (n / 2) (2 * w) op hop
          refine ⟨fun s hss => ?_, hd⟩
          obtain ⟨k, hk, rfl⟩ := hs s hss
          exact ⟨k, by omega, rfl⟩
        · obtain ⟨hs, hd⟩ := ih (o + n) (n / 2) (2 * w) op hop
          refine ⟨fun s hss => ?_, hd⟩
          obtain ⟨k, hk, rfl⟩ := hs s hss
          exact ⟨n + k, by omega, by omega⟩

lemma radix2_ops_ok (W o n w : ℕ) :
    ∀ op ∈ fft_radix2_ops W o n w,
    (∀ s ∈ FFTOp.slotsList op, ∃ k, k < 2 * n ∧ s = o + k) ∧
      FFTOp.distinctOk op :=
  radix2_f_ok W n o n w

/-- Every operation of the sqrt2 layer acts on slots below `4n` and
pairs distinct slots. -/
lemma sqrt2LayerLoop_ok (n w n1 trunc limbs i : ℕ) (htr : trunc ≤ 4 * n) :
    ∀ fuel j0, ∀ op ∈ sqrt2LayerLoop n w n1 trunc limbs i fuel j0,
    (∀ s ∈ FFTOp.slotsList op, s < 4 * n) ∧ FFTOp.distinctOk op := by
  intro fuel
  induction fuel with
  | zero => intro j0 op hop; exact absurd hop (List.not_mem_nil op)
  | succ fuel ih =>
      intro j0 op hop
      by_cases h1 : j0 < trunc - 2 * n
      · have hj : j0 < 2 * n := by omega
        simp only [sqrt2LayerLoop, if_pos h1, List.mem_append] at hop
        rcases hop with hop | hop
        · constructor
          · intro s hs
            have : op = FFTOp.bflyS j0 (2 * n + j0) j0 limbs w ∨
                op = FFTOp.bfly j0 (2 * n + j0) (j0 / 2) limbs w ∨
                op = FFTOp.bfly j0 (2 * n + j0) j0 limbs (w / 2) := by
              by_cases hw : w % 2 = 1
              · rw [if_pos hw] at hop
                by_cases hjp : j0 % 2 = 1
                · rw [if_pos hjp] at hop
                  exact Or.inl (by simpa using hop)
                · rw [if_neg hjp] at hop
                  exact Or.inr (Or.inl (by simpa using hop))
              · rw [if_neg hw] at hop
                exact Or.inr (Or.inr (by simpa using hop))
            rcases this with rfl | rfl | rfl <;>
              simp only [FFTOp.slotsList, List.mem_cons, List.mem_singleton] at hs <;>
              rcases hs with hs | hs | hs <;>
              first
                | omega
                | exact absurd hs (List.not_mem_nil s)
          · have : op = FFTOp.bflyS j0 (2 * n + j0) j0 limbs w ∨
                op = FFTOp.bfly j0 (2 * n + j0) (j0 / 2) limbs w ∨
                op = FFTOp.bfly j0 (2 * n + j0) j0 limbs (w / 2) := by
              by_cases hw : w % 2 = 1
              · rw [if_pos hw] at hop
                by_cases hjp : j0 % 2 = 1
                · rw [if_pos hjp] at hop
                  exact Or.inl (by simpa using hop)
                · rw [if_neg hjp] at hop
                  exact Or.inr (Or.inl (by simpa using hop))
              · rw [if_neg hw] at hop
                exact Or.inr (Or.inr (by simpa using hop))
            rcases this with rfl | rfl | rfl <;> simp only [FFTOp.distinctOk] <;>
              omega
        · exact ih (j0 + n1) op hop
      by_cases h2 : j0 < 2 * n
      · simp only [sqrt2LayerLoop, if_neg h1, if_pos h2, List.mem_append] at hop
        rcases hop with hop | hop
        · constructor
          · intro s hs
            have : op = FFTOp.adjS (j0 + 2 * n) j0 j0 limbs w ∨
                op = FFTOp.adj (j0 + 2 * n) j0 (j0 / 2) limbs w ∨
                op = FFTOp.adj (j0 + 2 * n) j0 j0 limbs (w / 2) := by
              by_cases hw : w % 2 = 1
              · rw [if_pos hw] at hop
                by_cases hip : i % 2 = 1
                · rw [if_pos hip] at hop
                  exact Or.inl (by simpa using hop)
                · rw [if_neg hip] at hop
                  exact Or.inr (Or.inl (by simpa using hop))
              · rw [if_neg hw] at hop
                exact Or.inr (Or.inr (by simpa using hop))
            rcases this with rfl | rfl | rfl <;>
              simp only [FFTOp.slotsList, List.mem_cons, List.mem_singleton] at hs <;>
              rcases hs with hs | hs | hs <;>
              first
                | omega
                | exact absurd hs (List.not_mem_nil s)
          · have : op = FFTOp.adjS (j0 + 2 * n) j0 j0 limbs w ∨
                op = FFTOp.adj (j0 + 2 * n) j0 (j0 / 2) limbs w ∨
                op = FFTOp.adj (j0 + 2 * n) j0 j0 limbs (w / 2) := by
              by_cases hw : w % 2 = 1
              · rw [if_pos hw] at hop
                by_cases hip : i % 2 = 1
                · rw [if_pos hip] at hop
                  exact Or.inl (by simpa using hop)
                · rw [if_neg hip] at hop
                  exact Or.inr (Or.inl (by simpa using hop))
              · rw [if_neg hw] at hop
                exact Or.inr (Or.inr (by simpa using hop))
            rcases this with rfl | rfl | rfl <;> simp [FFTOp.distinctOk]
        · exact ih (j0 + n1) op hop
      · simp only [sqrt2LayerLoop, if_neg h1, if_neg h2] at hop
        exact absurd hop (List.not_mem_nil op)

/-- All operations of the left column pass stay below slot `4n` and
respect the non-aliasing side conditions. -/
lemma mfaLeftColOps_ok (W n w n1 trunc d d2 : ℕ)
    (hn1 : n1 = 2 ^ d2) (hn2 : 2 * n / n1 = 2 ^ d)
    (hprod : n1 * (2 * n / n1) = 2 * n) (htr : trunc ≤ 4 * n) :
    ∀ op ∈ mfaLeftColOps W n w n1 trunc,
    (∀ s ∈ FFTOp.slotsList op, s < 4 * n) ∧ FFTOp.distinctOk op := by
  have his : 1 ≤ n1 := by
    rw [hn1]
    exact Nat.one_le_two_pow
  intro op hop
  rw [mfaLeftColOps, mem_passLoop] at hop
  obtain ⟨i, hi, hop⟩ := hop
  simp only [List.mem_append] at hop
  rcases hop with (hop | hop) | hop
  · exact sqrt2LayerLoop_ok n w n1 trunc (n * w / W) i htr _ i op hop
  · obtain ⟨hs, hd⟩ := radix2_twiddle_ops_ok W i n1 (2 * n / n1 / 2) (w * n1) w
      0 i 1 his op hop
    refine ⟨fun s hss => ?_, hd⟩
    obtain ⟨k, hk, rfl⟩ := hs s hss
    have hk2 : k < 2 * n / n1 := by omega
    have := grid_lt hi hk2 hprod
    omega
  · obtain ⟨j, hj, _, rfl⟩ := mem_bitrevOps hop
    have hrev : n_revbin j (fftDepth (2 * n / n1)) < 2 * n / n1 := by
      rw [hn2, fftDepth_pow]
      exact n_revbin_lt j d
    constructor
    · intro s hs
      simp only [FFTOp.slotsList, List.mem_cons, List.mem_singleton] at hs
      rcases hs with hs | hs | hs
      · have := grid_lt hi hj hprod
        omega
      · have := grid_lt hi hrev hprod
        omega
      · exact absurd hs (List.not_mem_nil s)
    · simp [FFTOp.distinctOk]

/-- All operations of the left row pass stay below slot `2n` and respect
the non-aliasing side conditions. -/
lemma mfaLeftRowOps_ok (W n w n1 d d2 : ℕ)
    (hn1 : n1 = 2 ^ d2) (hprod : n1 * (2 * n / n1) = 2 * n) :
    ∀ op ∈ mfaLeftRowOps W n w n1,
    (∀ s ∈ FFTOp.slotsList op, s < 2 * n) ∧ FFTOp.distinctOk op := by
  intro op hop
  rw [mfaLeftRowOps, mem_passLoop] at hop
  obtain ⟨i, hi, hop⟩ := hop
  simp only [List.mem_append] at hop
  rcases hop with hop | hop
  · obtain ⟨hs, hd⟩ := radix2_ops_ok W (i * n1) (n1 / 2) (w * (2 * n / n1)) op hop
    refine ⟨fun s hss => ?_, hd⟩
    obtain ⟨k, hk, rfl⟩ := hs s hss
    have hk2 : k < n1 := by omega
    have := grid_lt hk2 hi hprod
    omega
  · obtain ⟨j, hj, _, rfl⟩ := mem_bitrevOps hop
    have hrev : n_revbin j (fftDepth n1) < n1 := by
      rw [hn1, fftDepth_pow]
      exact n_revbin_lt j d2
    constructor
    · intro s hs
      simp only [FFTOp.slotsList, List.mem_cons, List.mem_singleton] at hs
      rcases hs with hs | hs | hs
      · have := grid_lt hj hi hprod
        omega
      · have := grid_lt hrev hi hprod
        omega
      · exact absurd hs (List.not_mem_nil s)
    · simp [FFTOp.distinctOk]

/-- All operations of the right column pass stay within slots
`[2n, 4n)` and respect the non-aliasing side conditions. -/
lemma mfaRightColOps_ok (W n w n1 trunc d d2 : ℕ)
    (hn1 : n1 = 2 ^ d2) (hn2 : 2 * n / n1 = 2 ^ d)
    (hprod : n1 * (2 * n / n1) = 2 * n) :
    ∀ op ∈ mfaRightColOps W n w n1 trunc,
    (∀ s ∈ FFTOp.slotsList op, 2 * n ≤ s ∧ s < 4 * n) ∧ FFTOp.distinctOk op := by
  have his : 1 ≤ n1 := by
    rw [hn1]
    exact Nat.one_le_two_pow
  intro op hop
  rw [mfaRightColOps, mem_passLoop] at hop
  obtain ⟨i, hi, hop⟩ := hop
  simp only [List.mem_append] at hop
  rcases hop with hop | hop
  · obtain ⟨hs, hd⟩ := truncate1_ops_ok W (2 * n + i) n1 (2 * n / n1 / 2)
      (w * n1) w 0 i 1 ((trunc - 2 * n) / n1) his op hop
    refine ⟨fun s hss => ?_, hd⟩
    obtain ⟨k, hk, rfl⟩ := hs s hss
    have hk2 : k < 2 * n / n1 := by omega
    have := grid_lt hi hk2 hprod
    omega
  · obtain ⟨j, hj, _, rfl⟩ := mem_bitrevOps hop
    have hrev : n_revbin j (fftDepth (2 * n / n1)) < 2 * n / n1 := by
      rw [hn2, fftDepth_pow]
      exact n_revbin_lt j d
    constructor
    · intro s hs
      simp only [FFTOp.slotsList, List.mem_cons, List.mem_singleton] at hs
      rcases hs with hs | hs | hs
      · have := grid_lt hi hj hprod
        omega
      · have := grid_lt hi hrev hprod
        omega
      · exact absurd hs (List.not_mem_nil s)
    · simp [FFTOp.distinctOk]

/-- All operations of the right row pass stay within slots `[2n, 4n)`
and respect the non-aliasing side conditions. -/
lemma mfaRightRowOps_ok (W n w n1 trunc d d2 : ℕ)
    (hn1 : n1 = 2 ^ d2) (hn2 : 2 * n / n1 = 2 ^ d)
    (hprod : n1 * (2 * n / n1) = 2 * n) :
    ∀ op ∈ mfaRightRowOps W n w n1 trunc,
    (∀ s ∈ FFTOp.slotsList op, 2 * n ≤ s ∧ s < 4 * n) ∧ FFTOp.distinctOk op := by
  intro op hop
  rw [mfaRightRowOps, mem_passLoop] at hop
  obtain ⟨s0, hs0, hop⟩ := hop
  have hrow : n_revbin s0 (fftDepth (2 * n / n1)) < 2 * n / n1 := by
    rw [hn2, fftDepth_pow]
    exact n_revbin_lt s0 d
  simp only [List.mem_append] at hop
  rcases hop with hop | hop
  · obtain ⟨hs, hd⟩ := radix2_ops_ok W
      (2 * n + n_revbin s0 (fftDepth (2 * n / n1)) * n1) (n1 / 2)
      (w * (2 * n / n1)) op hop
    refine ⟨fun s hss => ?_, hd⟩
    obtain ⟨k, hk, rfl⟩ := hs s hss
    have hk2 : k < n1 := by omega
    have := grid_lt hk2 hrow hprod
    omega
  · obtain ⟨j, hj, _, rfl⟩ := mem_bitrevOps hop
    have hrev : n_revbin j (fftDepth n1) < n1 := by
      rw [hn1, fftDepth_pow]
      exact n_revbin_lt j d2
    constructor
    · intro s hs
      simp only [FFTOp.slotsList, List.mem_cons, List.mem_singleton] at hs
      rcases hs with hs | hs | hs
      · have := grid_lt hj hrow hprod
        omega
      · have := grid_lt hrev hrow hprod
        omega
      · exact absurd hs (List.not_mem_nil s)
    · simp [FFTOp.distinctOk]

/-- All operations of the full matrix-Fourier transform stay below slot
`4n` and respect the non-aliasing side conditions. -/
lemma mfa_ops_ok (W n w n1 trunc d d2 : ℕ)
    (hn1 : n1 = 2 ^ d2) (hn2 : 2 * n / n1 = 2 ^ d)
    (hprod : n1 * (2 * n / n1) = 2 * n) (htr : trunc ≤ 4 * n) :
    ∀ op ∈ fft_mfa_truncate_sqrt2_ops W n w n1 trunc,
    (∀ s ∈ FFTOp.slotsList op, s < 4 * n) ∧ FFTOp.distinctOk op := by
  intro op hop
  simp only [fft_mfa_truncate_sqrt2_ops, List.mem_append] at hop
  rcases hop with ((hop | hop) | hop) | hop
  · exact mfaLeftColOps_ok W n w n1 trunc d d2 hn1 hn2 hprod htr op hop
  · obtain ⟨hs, hd⟩ := mfaLeftRowOps_ok W n w n1 d d2 hn1 hprod op hop
    exact ⟨fun s hss => by have := hs s hss; omega, hd⟩
  · obtain ⟨hs, hd⟩ := mfaRightColOps_ok W n w n1 trunc d d2 hn1 hn2 hprod op hop
    exact ⟨fun s hss => by have := hs s hss; omega, hd⟩
  · obtain ⟨hs, hd⟩ := mfaRightRowOps_ok W n w n1 trunc d d2 hn1 hn2 hprod op hop
    exact ⟨fun s hss => by have := hs s hss; omega, hd⟩

/-- All operations of the outer variant stay below slot `4n` and respect
the non-aliasing side conditions. -/
lemma mfa_outer_ops_ok (W n w n1 trunc d d2 : ℕ)
    (hn1 : n1 = 2 ^ d2) (hn2 : 2 * n / n1 = 2 ^ d)
    (hprod : n1 * (2 * n / n1) = 2 * n) (htr : trunc ≤ 4 * n) :
    ∀ op ∈ fft_mfa_truncate_sqrt2_outer_ops W n w n1 trunc,
    (∀ s ∈ FFTOp.slotsList op, s < 4 * n) ∧ FFTOp.distinctOk op := by
  intro op hop
  simp only [fft_mfa_truncate_sqrt2_outer_ops, List.mem_append] at hop
  rcases hop with hop | hop
  · exact mfaLeftColOps_ok W n w n1 trunc d d2 hn1 hn2 hprod htr op hop
  · obtain ⟨hs, hd⟩ := mfaRightColOps_ok W n w n1 trunc d d2 hn1 hn2 hprod op hop
    exact ⟨fun s hss => by have := hs s hss; omega, hd⟩

/-! ## Structural equations of the twiddled and truncated transforms -/

/-- Unfolding of the recursive case of `fft_radix2_twiddle`. -/
lemma radix2_twiddle_ops_rec (W o is n w ws r c rs : ℕ) (hn : 2 ≤ n) :
    fft_radix2_twiddle_ops W o is n w ws r c rs =
      butterflyLayerOps o is n (w * n / W) w ++
      fft_radix2_twiddle_ops W o is (n / 2) (2 * w) ws r c (2 * rs) ++
      fft_radix2_twiddle_ops W (o + n * is) is (n / 2) (2 * w) ws (r + rs) c
        (2 * rs) := by
  obtain ⟨m, rfl⟩ : ∃ m, n = m + 1 := ⟨n - 1, by omega⟩
  have h1 : ¬ m + 1 = 1 := by omega
  have hhalf0 : 0 < (m + 1) / 2 := by omega
  conv_lhs => rw [fft_radix2_twiddle_ops]
  rw [fft_radix2_twiddle_f, if_neg h1]
  rw [radix2_twiddle_f_eq_ops W ((m + 1) / 2) m o is (2 * w) ws r c (2 * rs)
      hhalf0 (by omega),
    radix2_twiddle_f_eq_ops W ((m + 1) / 2) m (o + (m + 1) * is) is (2 * w) ws
      (r + rs) c (2 * rs) hhalf0 (by omega)]

/-- Unfolding of the `trunc ≤ n` case of `fft_truncate1_twiddle`. -/
lemma truncate1_ops_foldcase (W o is n w ws r c rs trunc : ℕ) (h0 : 0 < n)
    (ht : trunc ≤ n) :
    fft_truncate1_twiddle_ops W o is n w ws r c rs trunc =
      foldLayerOps o is n (w * n / W) ++
      fft_truncate1_twiddle_ops W o is (n / 2) (2 * w) ws r c (2 * rs) trunc := by
  obtain ⟨m, rfl⟩ : ∃ m, n = m + 1 := ⟨n - 1, by omega⟩
  have h1 : ¬ trunc = 2 * (m + 1) := by omega
  conv_lhs => rw [fft_truncate1_twiddle_ops]
  rw [fft_truncate1_twiddle_f, if_neg h1, if_pos ht]
  by_cases hm : m = 0
  · subst hm
    rfl
  · have hhalf0 : 0 < (m + 1) / 2 := by omega
    rw [truncate1_f_eq_ops W ((m + 1) / 2) m o is (2 * w) ws r c (2 * rs) trunc
        hhalf0 (by omega)]

/-- Unfolding of the `n < trunc < 2n` case of `fft_truncate1_twiddle`. -/
lemma truncate1_ops_bflycase (W o is n w ws r c rs trunc : ℕ)
    (h1 : n < trunc) (h2 : trunc < 2 * n) :
    fft_truncate1_twiddle_ops W o is n w ws r c rs trunc =
      butterflyLayerOps o is n (w * n / W) w ++
      fft_radix2_twiddle_ops W o is (n / 2) (2 * w) ws r c (2 * rs) ++
      fft_truncate1_twiddle_ops W (o + n * is) is (n / 2) (2 * w) ws (r + rs) c
        (2 * rs) (trunc - n) := by
  have hn : 2 ≤ n := by omega
  obtain ⟨m, rfl⟩ : ∃ m, n = m + 1 := ⟨n - 1, by omega⟩
  have hne : ¬ trunc = 2 * (m + 1) := by omega
  have hne2 : ¬ trunc ≤ m + 1 := by omega
  have hhalf0 : 0 < (m + 1) / 2 := by omega
  conv_lhs => rw [fft_truncate1_twiddle_ops]
  rw [fft_truncate1_twiddle_f, if_neg hne, if_neg hne2]
  rw [truncate1_f_eq_ops W ((m + 1) / 2) m (o + (m + 1) * is) is (2 * w) ws
      (r + rs) c (2 * rs) (trunc - (m + 1)) hhalf0 (by omega)]

/-- **C4.** Calling `fft_truncate1_twiddle` with `trunc = 2n` produces
exactly the operations of `fft_radix2_twiddle` on the same arguments,
hence bit-identical slot contents and the same final slot-to-buffer
assignment on every state and every implementation of the external
primitives. -/
theorem truncate1_full_eq_radix2 (W o is n w ws r c rs : ℕ) :
    fft_truncate1_twiddle_ops W o is n w ws r c rs (2 * n) =
      fft_radix2_twiddle_ops W o is n w ws r c rs ∧
    ∀ (C : Type) (P : FFTPrims C) (st : FFTState C),
      exec P (fft_truncate1_twiddle_ops W o is n w ws r c rs (2 * n)) st =
        exec P (fft_radix2_twiddle_ops W o is n w ws r c rs) st := by
  have h : fft_truncate1_twiddle_ops W o is n w ws r c rs (2 * n) =
      fft_radix2_twiddle_ops W o is n w ws r c rs := by
    cases n with
    | zero => rfl
    | succ m =>
        rw [fft_truncate1_twiddle_ops, fft_truncate1_twiddle_f, if_pos rfl]
  exact ⟨h, fun C P st => by rw [h]⟩

/-- **C5.** Structure of `fft_radix2_twiddle`: in the base case `n = 1`
it performs exactly one twiddled butterfly with exponents `tw1 = r*c`
and `tw2 = tw1 + rs*c`, each scaled by `ws`, whose execution writes the
two results through the scratch buffers and places them by ownership
swap; in the recursive case one layer of untwiddled butterflies pairs
element `i` with element `n + i` (weight `w`), and the two half-length
recursions keep `(r, c, 2*rs)` on the lower half and use
`(r + rs, c, 2*rs)` on the upper half. -/
theorem fft_radix2_twiddle_structure (W o is n w ws r c rs : ℕ) :
    (n = 1 → fft_radix2_twiddle_ops W o is n w ws r c rs =
      [FFTOp.bflyT o (o + is) (w * n / W) (r * c * ws) ((r * c + rs * c) * ws)]) ∧
    (∀ (C : Type) (P : FFTPrims C) (st : FFTState C),
      execOp P st (FFTOp.bflyT o (o + is) (w * n / W) (r * c * ws)
          ((r * c + rs * c) * ws)) =
        butterflyPairStep (P.fft_butterfly_twiddle_p (vals st o) (vals st (o + is))
          (w * n / W) (r * c * ws) ((r * c + rs * c) * ws)) o (o + is) st) ∧
    (2 ≤ n → fft_radix2_twiddle_ops W o is n w ws r c rs =
      butterflyLayerOps o is n (w * n / W) w ++
      fft_radix2_twiddle_ops W o is (n / 2) (2 * w) ws r c (2 * rs) ++
      fft_radix2_twiddle_ops W (o + n * is) is (n / 2) (2 * w) ws (r + rs) c
        (2 * rs)) := by
  refine ⟨fun h1 => ?_, fun C P st => rfl,
    fun hn => radix2_twiddle_ops_rec W o is n w ws r c rs hn⟩
  subst h1
  rfl

/-- Witness for C5 at `n = 2` (recursive case) and the base case. -/
theorem fft_radix2_twiddle_structure_witness :
    (1 = 1 → fft_radix2_twiddle_ops 64 0 1 1 2 1 0 1 1 =
      [FFTOp.bflyT 0 1 (2 * 1 / 64) (0 * 1 * 1) ((0 * 1 + 1 * 1) * 1)]) ∧
    (2 ≤ 2 ∧ fft_radix2_twiddle_ops 64 0 1 2 2 1 0 1 1 =
      butterflyLayerOps 0 1 2 (2 * 2 / 64) 2 ++
      fft_radix2_twiddle_ops 64 0 1 (2 / 2) (2 * 2) 1 0 1 (2 * 1) ++
      fft_radix2_twiddle_ops 64 (0 + 2 * 1) 1 (2 / 2) (2 * 2) 1 (0 + 1) 1
        (2 * 1)) :=
  ⟨(fft_radix2_twiddle_structure 64 0 1 1 2 1 0 1 1).1,
    ⟨by decide, (fft_radix2_twiddle_structure 64 0 1 2 2 1 0 1 1).2.2 (by decide)⟩⟩

/-- **C3.** Structure of `fft_truncate1_twiddle`: when `trunc ≤ n` it
folds slot `(i+n)*is` into slot `i*is` by a plain `mpn_add_n` for every
`i < n` (no butterfly, no twiddle) and recurses once on the lower half
with length `n/2`, doubled weight, the same `(r, c)`, doubled `rs` and
the same `trunc`; when `n < trunc < 2n` it applies one untwiddled
butterfly layer over all `n` pairs with weight `w`, then the full
twiddled transform of length `n/2` on the lower half with
`(r, c, 2*rs)` and the truncated transform on the upper half with
`trunc - n` and row parameter `r + rs`. -/
theorem fft_truncate1_twiddle_structure (W o is n w ws r c rs trunc : ℕ) :
    (0 < n → trunc ≤ n →
      fft_truncate1_twiddle_ops W o is n w ws r c rs trunc =
        foldLayerOps o is n (w * n / W) ++
        fft_truncate1_twiddle_ops W o is (n / 2) (2 * w) ws r c (2 * rs) trunc) ∧
    (n < trunc → trunc < 2 * n →
      fft_truncate1_twiddle_ops W o is n w ws r c rs trunc =
        butterflyLayerOps o is n (w * n / W) w ++
        fft_radix2_twiddle_ops W o is (n / 2) (2 * w) ws r c (2 * rs) ++
        fft_truncate1_twiddle_ops W (o + n * is) is (n / 2) (2 * w) ws (r + rs)
          c (2 * rs) (trunc - n)) ∧
    (∀ (C : Type) (P : FFTPrims C) (st : FFTState C) (dst src sz : ℕ),
      execOp P st (FFTOp.addN dst src sz) =
        writeSlot dst (P.mpn_add_n_p (vals st dst) (vals st src) sz) st) :=
  ⟨fun h0 ht => truncate1_ops_foldcase W o is n w ws r c rs trunc h0 ht,
    fun h1 h2 => truncate1_ops_bflycase W o is n w ws r c rs trunc h1 h2,
    fun C P st dst src sz => rfl⟩

/-- Witness for C3 at `n = 4`, `trunc = 2` (fold case) and `n = 4`,
`trunc = 6` (butterfly case). -/
theorem fft_truncate1_twiddle_structure_witness :
    (0 < 4 ∧ 2 ≤ 4 ∧
      fft_truncate1_twiddle_ops 64 0 1 4 2 1 0 1 1 2 =
        foldLayerOps 0 1 4 (2 * 4 / 64) ++
        fft_truncate1_twiddle_ops 64 0 1 (4 / 2) (2 * 2) 1 0 1 (2 * 1) 2) ∧
    (4 < 6 ∧ 6 < 2 * 4 ∧
      fft_truncate1_twiddle_ops 64 0 1 4 2 1 0 1 1 6 =
        butterflyLayerOps 0 1 4 (2 * 4 / 64) 2 ++
        fft_radix2_twiddle_ops 64 0 1 (4 / 2) (2 * 2) 1 0 1 (2 * 1) ++
        fft_truncate1_twiddle_ops 64 (0 + 4 * 1) 1 (4 / 2) (2 * 2) 1 (0 + 1) 1
          (2 * 1) (6 - 4)) :=
  ⟨⟨by decide, by decide,
      (fft_truncate1_twiddle_structure 64 0 1 4 2 1 0 1 1 2).1 (by decide)
        (by decide)⟩,
    ⟨by decide, by decide,
      (fft_truncate1_twiddle_structure 64 0 1 4 2 1 0 1 1 6).2.1 (by decide)
        (by decide)⟩⟩

/-! ## Concrete primitives and state used by witnesses and counterexamples -/

/-- A concrete instantiation of the external primitives over `ℕ`,
chosen so that distinct operations produce visibly distinct results. -/
def P0 : FFTPrims ℕ :=
  { fft_butterfly := fun s t i _ w => (s + t + i + w + 1, s + 2 * t + 3 * i + w + 2)
    fft_butterfly_sqrt2 := fun s t i _ w => (2 * s + t + i + w + 3, s + 3 * t + i + 5, s + t + 7)
    fft_adjust := fun s i _ w => 2 * s + i + w + 1
    fft_adjust_sqrt2 := fun s i _ w => (3 * s + i + w + 2, s + 9)
    fft_butterfly_twiddle_p := fun s t _ b1 b2 => (s + t + b1 + 1, s + 2 * t + b2 + 2)
    mpn_add_n_p := fun a b _ => a + b }

/-- A concrete state: slot `k` owns buffer `k` holding value `k`; the
scratch variables own buffers `100`, `101`, `102`. -/
def st0 : FFTState ℕ :=
  { mem := fun id => id
    ptr := fun k => k
    t1 := 100
    t2 := 101
    temp := 102 }

instance {C : Type} (st : FFTState C) (N : ℕ) : Decidable (OwnInjN st N) := by
  unfold OwnInjN
  infer_instance

/-- **C10.** When `fft_truncate1_twiddle` is called with `trunc ≤ n`,
the upper-half slots `o + (n+i)*is` are only read, never written and
never ownership-swapped: on return each upper-half slot still owns the
same buffer with unchanged contents, and the ownership of every slot
outside the lower half is untouched. -/
theorem fft_truncate1_twiddle_upper_frame {C : Type} (P : FFTPrims C)
    (st : FFTState C) (W o is n w ws r c rs trunc N : ℕ)
    (h0 : 0 < n) (ht : trunc ≤ n) (his : 1 ≤ is)
    (hN : o + 2 * n * is + 3 ≤ N) (hinj : OwnInjN st N) :
    (∀ i, i < n →
      (exec P (fft_truncate1_twiddle_ops W o is n w ws r c rs trunc) st).ptr
          (o + (n + i) * is) = st.ptr (o + (n + i) * is) ∧
      vals (exec P (fft_truncate1_twiddle_ops W o is n w ws r c rs trunc) st)
          (o + (n + i) * is) = vals st (o + (n + i) * is)) ∧
    (∀ k, (∀ j, j < n → k ≠ o + j * is) →
      (exec P (fft_truncate1_twiddle_ops W o is n w ws r c rs trunc) st).ptr k =
        st.ptr k) := by
  have hw : ∀ op ∈ fft_truncate1_twiddle_ops W o is n w ws r c rs trunc,
      ∀ s ∈ FFTOp.writesList op, ∃ j, j < n ∧ s = o + j * is := by
    rw [truncate1_ops_foldcase W o is n w ws r c rs trunc h0 ht]
    intro op hop s hs
    rcases List.mem_append.mp hop with hop | hop
    · obtain ⟨i, hi, rfl⟩ := mem_foldLayerOps hop
      simp only [FFTOp.writesList, List.mem_singleton] at hs
      exact ⟨i, hi, hs⟩
    · obtain ⟨hsl, _⟩ := truncate1_ops_ok W o is (n / 2) (2 * w) ws r c (2 * rs)
        trunc his op hop
      obtain ⟨k, hk, rfl⟩ := hsl s (writes_subset_slots op s hs)
      exact ⟨k, by omega, rfl⟩
  have hframe : FrameOK (fun s => ∃ j, j < n ∧ s = o + j * is) st
      (exec P (fft_truncate1_twiddle_ops W o is n w ws r c rs trunc) st) :=
    exec_frame P _ st _ hw
  have hSlN : ∀ s, (∃ j, j < n ∧ s = o + j * is) → s + 3 < N := by
    rintro s ⟨j, hj, rfl⟩
    have : j * is < 2 * n * is := mul_lt_mul_of_pos_right (by omega) (by omega)
    omega
  constructor
  · intro i hi
    have hnotin : ¬ ∃ j, j < n ∧ o + (n + i) * is = o + j * is := by
      rintro ⟨j, hj, he⟩
      have he2 : (n + i) * is = j * is := by omega
      have := Nat.eq_of_mul_eq_mul_right (by omega : 0 < is) he2
      omega
    have hkN : o + (n + i) * is + 3 < N := by
      have : (n + i) * is < 2 * n * is :=
        mul_lt_mul_of_pos_right (by omega) (by omega)
      omega
    exact ⟨hframe.1 _ hnotin,
      frame_vals_outside hframe hinj hSlN _ hnotin hkN⟩
  · intro k hk
    refine hframe.1 k ?_
    rintro ⟨j, hj, rfl⟩
    exact hk j hj rfl

/-- Witness for C10 at `n = 2`, `trunc = 2`, unit stride, on `st0`. -/
theorem fft_truncate1_twiddle_upper_frame_witness :
    (0 < 2 ∧ 2 ≤ 2 ∧ 1 ≤ 1 ∧ 0 + 2 * 2 * 1 + 3 ≤ 11 ∧ OwnInjN st0 11) ∧
    ((∀ i, i < 2 →
      (exec P0 (fft_truncate1_twiddle_ops 64 0 1 2 2 1 0 1 1 2) st0).ptr
          (0 + (2 + i) * 1) = st0.ptr (0 + (2 + i) * 1) ∧
      vals (exec P0 (fft_truncate1_twiddle_ops 64 0 1 2 2 1 0 1 1 2) st0)
          (0 + (2 + i) * 1) = vals st0 (0 + (2 + i) * 1)) ∧
    (∀ k, (∀ j, j < 2 → k ≠ 0 + j * 1) →
      (exec P0 (fft_truncate1_twiddle_ops 64 0 1 2 2 1 0 1 1 2) st0).ptr k =
        st0.ptr k)) :=
  ⟨⟨by decide, by decide, by decide, by decide, by decide⟩,
    fft_truncate1_twiddle_upper_frame P0 st0 64 0 1 2 2 1 0 1 1 2 11
      (by decide) (by decide) (by decide) (by decide) (by decide)⟩

/-! ## Ownership preservation of the complete transforms -/

lemma opOKBelow_of_range {N : ℕ} {ops : List FFTOp}
    (h : ∀ op ∈ ops, (∀ s ∈ FFTOp.slotsList op, s + 3 < N) ∧
      FFTOp.distinctOk op) : ∀ op ∈ ops, OpOKBelow N op :=
  fun op hop => ⟨(h op hop).2,
    fun s hs => (h op hop).1 s (writes_subset_slots op s hs)⟩

lemma radix2_twiddle_exec_ownPerm {C : Type} (P : FFTPrims C) (st : FFTState C)
    (W o is n w ws r c rs N : ℕ) (his : 1 ≤ is)
    (hN : o + 2 * n * is + 3 ≤ N) :
    OwnPermBelow st (exec P (fft_radix2_twiddle_ops W o is n w ws r c rs) st)
      N := by
  refine exec_ownPerm P _ st N (opOKBelow_of_range ?_)
  intro op hop
  obtain ⟨hs, hd⟩ := radix2_twiddle_ops_ok W o is n w ws r c rs his op hop
  refine ⟨fun s hss => ?_, hd⟩
  obtain ⟨k, hk, rfl⟩ := hs s hss
  have : k * is < 2 * n * is := mul_lt_mul_of_pos_right hk (by omega)
  omega

lemma truncate1_exec_ownPerm {C : Type} (P : FFTPrims C) (st : FFTState C)
    (W o is n w ws r c rs trunc N : ℕ) (his : 1 ≤ is)
    (hN : o + 2 * n * is + 3 ≤ N) :
    OwnPermBelow st
      (exec P (fft_truncate1_twiddle_ops W o is n w ws r c rs trunc) st) N := by
  refine exec_ownPerm P _ st N (opOKBelow_of_range ?_)
  intro op hop
  obtain ⟨hs, hd⟩ := truncate1_ops_ok W o is n w ws r c rs trunc his op hop
  refine ⟨fun s hss => ?_, hd⟩
  obtain ⟨k, hk, rfl⟩ := hs s hss
  have : k * is < 2 * n * is := mul_lt_mul_of_pos_right hk (by omega)
  omega

lemma radix2_exec_ownPerm {C : Type} (P : FFTPrims C) (st : FFTState C)
    (W o n w N : ℕ) (hN : o + 2 * n + 3 ≤ N) :
    OwnPermBelow st (exec P (fft_radix2_ops W o n w) st) N := by
  refine exec_ownPerm P _ st N (opOKBelow_of_range ?_)
  intro op hop
  obtain ⟨hs, hd⟩ := radix2_ops_ok W o n w op hop
  refine ⟨fun s hss => ?_, hd⟩
  obtain ⟨k, hk, rfl⟩ := hs s hss
  omega

lemma mfa_exec_ownPerm {C : Type} (P : FFTPrims C) (st : FFTState C)
    (W n w n1 trunc N d d2 : ℕ)
    (hn1 : n1 = 2 ^ d2) (hn2 : 2 * n / n1 = 2 ^ d)
    (hprod : n1 * (2 * n / n1) = 2 * n) (htr : trunc ≤ 4 * n)
    (hN : 4 * n + 3 ≤ N) :
    OwnPermBelow st (exec P (fft_mfa_truncate_sqrt2_ops W n w n1 trunc) st)
      N := by
  refine exec_ownPerm P _ st N (opOKBelow_of_range ?_)
  intro op hop
  obtain ⟨hs, hd⟩ := mfa_ops_ok W n w n1 trunc d d2 hn1 hn2 hprod htr op hop
  exact ⟨fun s hss => by have := hs s hss; omega, hd⟩

lemma mfa_outer_exec_ownPerm {C : Type} (P : FFTPrims C) (st : FFTState C)
    (W n w n1 trunc N d d2 : ℕ)
    (hn1 : n1 = 2 ^ d2) (hn2 : 2 * n / n1 = 2 ^ d)
    (hprod : n1 * (2 * n / n1) = 2 * n) (htr : trunc ≤ 4 * n)
    (hN : 4 * n + 3 ≤ N) :
    OwnPermBelow st
      (exec P (fft_mfa_truncate_sqrt2_outer_ops W n w n1 trunc) st) N := by
  refine exec_ownPerm P _ st N (opOKBelow_of_range ?_)
  intro op hop
  obtain ⟨hs, hd⟩ := mfa_outer_ops_ok W n w n1 trunc d d2 hn1 hn2 hprod htr op hop
  exact ⟨fun s hss => by have := hs s hss; omega, hd⟩

/-- **C8.** Every operation of the core — a butterfly with its
`SWAP_PTRS` pair (plain, twiddled or sqrt2), a bit-reversal slot swap,
and every complete transform call (`fft_radix2_twiddle`,
`fft_truncate1_twiddle`, the plain base transform,
`fft_mfa_truncate_sqrt2` and its outer variant) — turns the ownership
map into the old ownership map composed with a permutation of the live
locations (no buffer is copied or orphaned, ownership is only
exchanged), and therefore preserves the invariant that every buffer is
owned by exactly one slot or scratch variable. -/
theorem ownership_invariant_preservation :
    (∀ (C : Type) (uv : C × C) (a b N : ℕ) (st : FFTState C),
      a ≠ b → a + 3 < N → b + 3 < N →
      OwnPermBelow st (butterflyPairStep uv a b st) N ∧
      (OwnInjN st N → OwnInjN (butterflyPairStep uv a b st) N)) ∧
    (∀ (C : Type) (uvt : C × C × C) (a b N : ℕ) (st : FFTState C),
      a ≠ b → a + 3 < N → b + 3 < N →
      OwnPermBelow st (butterflySqrt2Step uvt a b st) N ∧
      (OwnInjN st N → OwnInjN (butterflySqrt2Step uvt a b st) N)) ∧
    (∀ (C : Type) (a b N : ℕ) (st : FFTState C), a + 3 < N → b + 3 < N →
      OwnPermBelow st (swapSlots a b st) N ∧
      (OwnInjN st N → OwnInjN (swapSlots a b st) N)) ∧
    (∀ (C : Type) (P : FFTPrims C) (st : FFTState C) (W o is n w ws r c rs N : ℕ),
      1 ≤ is → o + 2 * n * is + 3 ≤ N →
      OwnPermBelow st (exec P (fft_radix2_twiddle_ops W o is n w ws r c rs) st) N ∧
      (OwnInjN st N →
        OwnInjN (exec P (fft_radix2_twiddle_ops W o is n w ws r c rs) st) N)) ∧
    (∀ (C : Type) (P : FFTPrims C) (st : FFTState C)
      (W o is n w ws r c rs trunc N : ℕ),
      1 ≤ is → o + 2 * n * is + 3 ≤ N →
      OwnPermBelow st
        (exec P (fft_truncate1_twiddle_ops W o is n w ws r c rs trunc) st) N ∧
      (OwnInjN st N → OwnInjN
        (exec P (fft_truncate1_twiddle_ops W o is n w ws r c rs trunc) st) N)) ∧
    (∀ (C : Type) (P : FFTPrims C) (st : FFTState C) (W o n w N : ℕ),
      o + 2 * n + 3 ≤ N →
      OwnPermBelow st (exec P (fft_radix2_ops W o n w) st) N ∧
      (OwnInjN st N → OwnInjN (exec P (fft_radix2_ops W o n w) st) N)) ∧
    (∀ (C : Type) (P : FFTPrims C) (st : FFTState C) (W n w n1 trunc N d d2 : ℕ),
      n1 = 2 ^ d2 → 2 * n / n1 = 2 ^ d → n1 * (2 * n / n1) = 2 * n →
      trunc ≤ 4 * n → 4 * n + 3 ≤ N →
      OwnPermBelow st (exec P (fft_mfa_truncate_sqrt2_ops W n w n1 trunc) st) N ∧
      (OwnInjN st N →
        OwnInjN (exec P (fft_mfa_truncate_sqrt2_ops W n w n1 trunc) st) N)) ∧
    (∀ (C : Type) (P : FFTPrims C) (st : FFTState C) (W n w n1 trunc N d d2 : ℕ),
      n1 = 2 ^ d2 → 2 * n / n1 = 2 ^ d → n1 * (2 * n / n1) = 2 * n →
      trunc ≤ 4 * n → 4 * n + 3 ≤ N →
      OwnPermBelow st
        (exec P (fft_mfa_truncate_sqrt2_outer_ops W n w n1 trunc) st) N ∧
      (OwnInjN st N → OwnInjN
        (exec P (fft_mfa_truncate_sqrt2_outer_ops W n w n1 trunc) st) N)) := by
  refine ⟨?_, ?_, ?_, ?_, ?_, ?_, ?_, ?_⟩
  · intro C uv a b N st hab haN hbN
    have h := ownPermBelow_butterflyPairStep uv a b st N hab haN hbN
    exact ⟨h, fun hinj => ownInjN_of_perm h hinj⟩
  · intro C uvt a b N st hab haN hbN
    have h := ownPermBelow_butterflySqrt2Step uvt a b st N hab haN hbN
    exact ⟨h, fun hinj => ownInjN_of_perm h hinj⟩
  · intro C a b N st haN hbN
    have h := ownPermBelow_swapSlots a b st N haN hbN
    exact ⟨h, fun hinj => ownInjN_of_perm h hinj⟩
  · intro C P st W o is n w ws r c rs N his hN
    have h := radix2_twiddle_exec_ownPerm P st W o is n w ws r c rs N his hN
    exact ⟨h, fun hinj => ownInjN_of_perm h hinj⟩
  · intro C P st W o is n w ws r c rs trunc N his hN
    have h := truncate1_exec_ownPerm P st W o is n w ws r c rs trunc N his hN
    exact ⟨h, fun hinj => ownInjN_of_perm h hinj⟩
  · intro C P st W o n w N hN
    have h := radix2_exec_ownPerm P st W o n w N hN
    exact ⟨h, fun hinj => ownInjN_of_perm h hinj⟩
  · intro C P st W n w n1 trunc N d d2 hn1 hn2 hprod htr hN
    have h := mfa_exec_ownPerm P st W n w n1 trunc N d d2 hn1 hn2 hprod htr hN
    exact ⟨h, fun hinj => ownInjN_of_perm h hinj⟩
  · intro C P st W n w n1 trunc N d d2 hn1 hn2 hprod htr hN
    have h := mfa_outer_exec_ownPerm P st W n w n1 trunc N d d2 hn1 hn2 hprod
      htr hN
    exact ⟨h, fun hinj => ownInjN_of_perm h hinj⟩

/-- Witness for C8: the full matrix-Fourier transform at `n = 2`,
`w = 2`, `n1 = 2`, `trunc = 8` on the concrete state `st0` preserves the
ownership invariant on the 8 slots and 3 scratch variables. -/
theorem ownership_invariant_preservation_witness :
    ((2 : ℕ) = 2 ^ 1 ∧ 2 * 2 / 2 = 2 ^ 1 ∧ 2 * (2 * 2 / 2) = 2 * 2 ∧
      (8 : ℕ) ≤ 4 * 2 ∧ 4 * 2 + 3 ≤ 11 ∧ OwnInjN st0 11) ∧
    (OwnPermBelow st0 (exec P0 (fft_mfa_truncate_sqrt2_ops 64 2 2 2 8) st0) 11 ∧
      (OwnInjN st0 11 →
        OwnInjN (exec P0 (fft_mfa_truncate_sqrt2_ops 64 2 2 2 8) st0) 11)) :=
  ⟨⟨by decide, by decide, by decide, by decide, by decide, by decide⟩,
    ownership_invariant_preservation.2.2.2.2.2.2.1 ℕ P0 st0 64 2 2 2 8 11 1 1
      (by decide) (by decide) (by decide) (by decide) (by decide)⟩

/-- **C9.** `fft_mfa_truncate_sqrt2` is a deterministic pure function of
its input signal and parameters: two runs with the same parameters on
states holding equal coefficient values in the `4n` slots (and equal
scratch contents), each satisfying the ownership invariant, leave equal
coefficient values in all `4n` slots, regardless of buffer layout or of
any data outside the signal — there is no ambient or persistent state. -/
theorem mfa_deterministic {C : Type} (P : FFTPrims C) (st1 st2 : FFTState C)
    (W n w n1 trunc d d2 : ℕ)
    (hn1 : n1 = 2 ^ d2) (hn2 : 2 * n / n1 = 2 ^ d)
    (hprod : n1 * (2 * n / n1) = 2 * n) (htr : trunc ≤ 4 * n)
    (hinj1 : OwnInjN st1 (4 * n + 3)) (hinj2 : OwnInjN st2 (4 * n + 3))
    (hvals : ∀ k, k < 4 * n → vals st1 k = vals st2 k)
    (hscr : st1.mem st1.t1 = st2.mem st2.t1 ∧ st1.mem st1.t2 = st2.mem st2.t2 ∧
      st1.mem st1.temp = st2.mem st2.temp) :
    ∀ k, k < 4 * n →
      vals (exec P (fft_mfa_truncate_sqrt2_ops W n w n1 trunc) st1) k =
        vals (exec P (fft_mfa_truncate_sqrt2_ops W n w n1 trunc) st2) k := by
  have h := exec_valsEq P (fft_mfa_truncate_sqrt2_ops W n w n1 trunc)
    (fun k => k < 4 * n) (4 * n + 3) st1 st2
    (fun op hop s hs =>
      (mfa_ops_ok W n w n1 trunc d d2 hn1 hn2 hprod htr op hop).1 s hs)
    (fun op hop => (mfa_ops_ok W n w n1 trunc d d2 hn1 hn2 hprod htr op hop).2)
    (fun s hs => by omega) hinj1 hinj2 hvals
  exact h

/-- Witness for C9: two identical runs at `n = 2`, `w = 2`, `n1 = 2`,
`trunc = 8` on `st0`. -/
theorem mfa_deterministic_witness :
    ((2 : ℕ) = 2 ^ 1 ∧ 2 * 2 / 2 = 2 ^ 1 ∧ 2 * (2 * 2 / 2) = 2 * 2 ∧
      (8 : ℕ) ≤ 4 * 2 ∧ OwnInjN st0 (4 * 2 + 3) ∧
      (∀ k, k < 4 * 2 → vals st0 k = vals st0 k) ∧
      st0.mem st0.t1 = st0.mem st0.t1) ∧
    (∀ k, k < 4 * 2 →
      vals (exec P0 (fft_mfa_truncate_sqrt2_ops 64 2 2 2 8) st0) k =
        vals (exec P0 (fft_mfa_truncate_sqrt2_ops 64 2 2 2 8) st0) k) :=
  ⟨⟨by decide, by decide, by decide, by decide, by decide,
      fun k _ => rfl, rfl⟩,
    mfa_deterministic P0 st0 st0 64 2 2 2 8 1 1 (by decide) (by decide)
      (by decide) (by decide) (by decide) (by decide) (fun k _ => rfl)
      ⟨rfl, rfl, rfl⟩⟩

/-! ## The bit-reversal swap loop implements the bit-reversal permutation -/

/-- The slot-to-slot relocation achieved by the first `m` iterations of
the conditional-swap loop: the pair `{j, n_revbin j d}` has been
exchanged exactly when its smaller element has already been visited. -/
def bitrevStage (d m j : ℕ) : ℕ :=
  if j < m ∨ n_revbin j d < m then n_revbin j d else j

lemma exec_swapOnly {C : Type} (P : FFTPrims C) :
    ∀ (ops : List FFTOp), (∀ op ∈ ops, ∃ a b, op = FFTOp.swapP a b) →
    ∀ st : FFTState C, (exec P ops st).mem = st.mem ∧
      (exec P ops st).t1 = st.t1 ∧ (exec P ops st).t2 = st.t2 ∧
      (exec P ops st).temp = st.temp := by
  intro ops
  induction ops with
  | nil => intro _ st; exact ⟨rfl, rfl, rfl, rfl⟩
  | cons op rest ih =>
      intro h st
      obtain ⟨a, b, rfl⟩ := h op (List.mem_cons_self op rest)
      have h2 := ih (fun o ho => h o (List.mem_cons_of_mem _ ho))
        (execOp P st (FFTOp.swapP a b))
      simpa [exec, execOp, swapSlots] using h2

lemma bitrevOps_swapOnly (start step d count : ℕ) :
    ∀ op ∈ bitrevOps start step d count, ∃ a b, op = FFTOp.swapP a b := by
  intro op hop
  obtain ⟨j, _, _, rfl⟩ := mem_bitrevOps hop
  exact ⟨_, _, rfl⟩

lemma bitrevOps_ptr_loop {C : Type} (P : FFTPrims C) (st : FFTState C)
    (base step d : ℕ) (hstep : 1 ≤ step) :
    ∀ m, m ≤ 2 ^ d → ∀ j, j < 2 ^ d →
    (exec P (bitrevOps base step d m) st).ptr (base + j * step) =
      st.ptr (base + bitrevStage d m j * step) := by
  intro m
  induction m with
  | zero =>
      intro _ j hj
      simp [bitrevOps, passLoop, exec, bitrevStage]
  | succ m ih =>
      intro hm j hj
      have hmd : m < 2 ^ d := by omega
      have hinv : ∀ x, x < 2 ^ d → n_revbin (n_revbin x d) d = x :=
        n_revbin_involutive d
      have haff : ∀ x y : ℕ, base + x * step = base + y * step → x = y := by
        intro x y hxy
        have h2 : x * step = y * step := by omega
        exact Nat.eq_of_mul_eq_mul_right (by omega) h2
      have hsplit : bitrevOps base step d (m + 1) =
          bitrevOps base step d m ++
          (if m < n_revbin m d
            then [FFTOp.swapP (base + m * step) (base + n_revbin m d * step)]
            else []) := rfl
      rw [hsplit, exec_append]
      by_cases hmrev : m < n_revbin m d
      · rw [if_pos hmrev]
        have hswap : exec P
            [FFTOp.swapP (base + m * step) (base + n_revbin m d * step)]
            (exec P (bitrevOps base step d m) st) =
            swapSlots (base + m * step) (base + n_revbin m d * step)
              (exec P (bitrevOps base step d m) st) := rfl
        rw [hswap]
        by_cases hjm : j = m
        · subst hjm
          have e1 : (swapSlots (base + j * step) (base + n_revbin j d * step)
              (exec P (bitrevOps base step d j) st)).ptr (base + j * step) =
              (exec P (bitrevOps base step d j) st).ptr
                (base + n_revbin j d * step) := by
            simp [swapSlots]
          rw [e1, ih (by omega) (n_revbin j d) (n_revbin_lt j d)]
          have e2 : bitrevStage d j (n_revbin j d) = n_revbin j d := by
            rw [bitrevStage, if_neg]
            rw [hinv j hj]
            omega
          have e3 : bitrevStage d (j + 1) j = n_revbin j d := by
            rw [bitrevStage, if_pos (Or.inl (by omega))]
          rw [e2, e3]
        by_cases hjrev : j = n_revbin m d
        · subst hjrev
          have hne : base + n_revbin m d * step ≠ base + m * step := by
            intro he
            exact hjm (haff _ _ he)
          have e1 : (swapSlots (base + m * step) (base + n_revbin m d * step)
              (exec P (bitrevOps base step d m) st)).ptr
                (base + n_revbin m d * step) =
              (exec P (bitrevOps base step d m) st).ptr (base + m * step) := by
            simp [swapSlots, hne]
          rw [e1, ih (by omega) m hmd]
          have e2 : bitrevStage d m m = m := by
            rw [bitrevStage, if_neg]
            omega
          have e3 : bitrevStage d (m + 1) (n_revbin m d) = m := by
            rw [bitrevStage, if_pos (Or.inr (by rw [hinv m hmd]; omega))]
            rw [hinv m hmd]
          rw [e2, e3]
        · have hne1 : base + j * step ≠ base + m * step := by
            intro he
            exact hjm (haff _ _ he)
          have hne2 : base + j * step ≠ base + n_revbin m d * step := by
            intro he
            exact hjrev (haff _ _ he)
          have e1 : (swapSlots (base + m * step) (base + n_revbin m d * step)
              (exec P (bitrevOps base step d m) st)).ptr (base + j * step) =
              (exec P (bitrevOps base step d m) st).ptr (base + j * step) := by
            simp [swapSlots, hne1, hne2]
          rw [e1, ih (by omega) j hj]
          have hrevne : n_revbin j d ≠ m := by
            intro he
            apply hjrev
            rw [← he, hinv j hj]
          have : bitrevStage d (m + 1) j = bitrevStage d m j := by
            rw [bitrevStage, bitrevStage,
              if_congr (by omega : (j < m + 1 ∨ n_revbin j d < m + 1) ↔
                (j < m ∨ n_revbin j d < m)) rfl rfl]
          rw [this]
      · rw [if_neg hmrev]
        have : exec P []
            (exec P (bitrevOps base step d m) st) =
            exec P (bitrevOps base step d m) st := rfl
        rw [this, ih (by omega) j hj]
        have hmrev2 : n_revbin m d ≤ m := by omega
        by_cases hc : j < m ∨ n_revbin j d < m
        · have : bitrevStage d (m + 1) j = n_revbin j d := by
            rw [bitrevStage, if_pos (by omega)]
          rw [this, bitrevStage, if_pos hc]
        · push_neg at hc
          by_cases hjm : j = m
          · subst hjm
            have hrj : n_revbin j d = j := by omega
            have e1 : bitrevStage d (j + 1) j = j := by
              rw [bitrevStage, if_pos (Or.inl (by omega)), hrj]
            have e2 : bitrevStage d j j = j := by
              rw [bitrevStage, if_neg (by omega)]
            rw [e1, e2]
          · by_cases hrevm : n_revbin j d = m
            · have hj2 : j = n_revbin m d := by
                rw [← hrevm, hinv j hj]
              omega
            · have e1 : bitrevStage d (m + 1) j = j := by
                rw [bitrevStage, if_neg (by omega)]
              have e2 : bitrevStage d m j = j := by
                rw [bitrevStage, if_neg (by omega)]
              rw [e1, e2]

/-- Running the complete conditional-swap loop over `2^d` indices
relocates slot contents by the bit-reversal permutation. -/
lemma bitrevOps_full {C : Type} (P : FFTPrims C) (st : FFTState C)
    (base step d : ℕ) (hstep : 1 ≤ step) :
    ∀ j, j < 2 ^ d →
    (exec P (bitrevOps base step d (2 ^ d)) st).ptr (base + j * step) =
      st.ptr (base + n_revbin j d * step) ∧
    vals (exec P (bitrevOps base step d (2 ^ d)) st) (base + j * step) =
      vals st (base + n_revbin j d * step) := by
  intro j hj
  have h1 := bitrevOps_ptr_loop P st base step d hstep (2 ^ d) (le_refl _) j hj
  have hstage : bitrevStage d (2 ^ d) j = n_revbin j d := by
    rw [bitrevStage, if_pos (Or.inl hj)]
  rw [hstage] at h1
  have hmem := exec_swapOnly P (bitrevOps base step d (2 ^ d))
    (bitrevOps_swapOnly base step d (2 ^ d)) st
  refine ⟨h1, ?_⟩
  rw [vals, vals, h1, hmem.1]

/-- **C7.** Row-pass structure of `fft_mfa_truncate_sqrt2` (for
`n1 = 2^d2`, `n2 = 2n/n1 = 2^d`): the transform consists of the four
passes in order; the left row pass runs the length-`n1` plain base
transform on every one of the `n2` rows in order; the right row pass
runs it on exactly `trunc2 = (trunc - 2n)/n1` rows, visiting row
`n_revbin s d` for `s = 0, ..., trunc2 - 1`; and after each row
transform the conditional-swap loop relocates the row's slot contents by
reversing the low `d2 = log2(n1)` bits of every column index. -/
theorem mfa_row_pass_structure (W n w n1 trunc d d2 : ℕ)
    (hn1 : n1 = 2 ^ d2) (hn2 : 2 * n / n1 = 2 ^ d) :
    fft_mfa_truncate_sqrt2_ops W n w n1 trunc =
      mfaLeftColOps W n w n1 trunc ++ mfaLeftRowOps W n w n1 ++
      mfaRightColOps W n w n1 trunc ++ mfaRightRowOps W n w n1 trunc ∧
    mfaLeftRowOps W n w n1 =
      passLoop (fun i =>
        fft_radix2_ops W (i * n1) (n1 / 2) (w * (2 * n / n1)) ++
        bitrevOps (i * n1) 1 d2 n1) (2 * n / n1) ∧
    mfaRightRowOps W n w n1 trunc =
      passLoop (fun s =>
        fft_radix2_ops W (2 * n + n_revbin s d * n1) (n1 / 2)
          (w * (2 * n / n1)) ++
        bitrevOps (2 * n + n_revbin s d * n1) 1 d2 n1) ((trunc - 2 * n) / n1) ∧
    (∀ (C : Type) (P : FFTPrims C) (st : FFTState C) (base step : ℕ),
      1 ≤ step → ∀ j, j < n1 →
      (exec P (bitrevOps base step d2 n1) st).ptr (base + j * step) =
        st.ptr (base + n_revbin j d2 * step) ∧
      vals (exec P (bitrevOps base step d2 n1) st) (base + j * step) =
        vals st (base + n_revbin j d2 * step)) := by
  have hdep2 : fftDepth n1 = d2 := by rw [hn1, fftDepth_pow]
  have hdep : fftDepth (2 * n / n1) = d := by rw [hn2, fftDepth_pow]
  refine ⟨by simp [fft_mfa_truncate_sqrt2_ops, List.append_assoc], ?_, ?_, ?_⟩
  · rw [mfaLeftRowOps]
    simp only [hdep2]
  · rw [mfaRightRowOps]
    simp only [hdep2, hdep]
  · intro C P st base step hstep j hj
    subst hn1
    exact bitrevOps_full P st base step d2 hstep j hj

/-- Witness for C7 at `n = 2`, `n1 = 2`, `trunc = 8` (`d = d2 = 1`). -/
theorem mfa_row_pass_structure_witness :
    ((2 : ℕ) = 2 ^ 1 ∧ 2 * 2 / 2 = 2 ^ 1) ∧
    (fft_mfa_truncate_sqrt2_ops 64 2 2 2 8 =
      mfaLeftColOps 64 2 2 2 8 ++ mfaLeftRowOps 64 2 2 2 ++
      mfaRightColOps 64 2 2 2 8 ++ mfaRightRowOps 64 2 2 2 8 ∧
    mfaLeftRowOps 64 2 2 2 =
      passLoop (fun i =>
        fft_radix2_ops 64 (i * 2) (2 / 2) (2 * (2 * 2 / 2)) ++
        bitrevOps (i * 2) 1 1 2) (2 * 2 / 2) ∧
    mfaRightRowOps 64 2 2 2 8 =
      passLoop (fun s =>
        fft_radix2_ops 64 (2 * 2 + n_revbin s 1 * 2) (2 / 2)
          (2 * (2 * 2 / 2)) ++
        bitrevOps (2 * 2 + n_revbin s 1 * 2) 1 1 2) ((8 - 2 * 2) / 2) ∧
    (∀ (C : Type) (P : FFTPrims C) (st : FFTState C) (base step : ℕ),
      1 ≤ step → ∀ j, j < 2 →
      (exec P (bitrevOps base step 1 2) st).ptr (base + j * step) =
        st.ptr (base + n_revbin j 1 * step) ∧
      vals (exec P (bitrevOps base step 1 2) st) (base + j * step) =
        vals st (base + n_revbin j 1 * step))) :=
  ⟨⟨by decide, by decide⟩,
    mfa_row_pass_structure 64 2 2 2 8 1 1 (by decide) (by decide)⟩

/-! ## The sqrt2 layer: claimed and actual butterfly dispatch -/

/-- `f j0 ++ f j1 ++ ... ` over a list of indices. -/
def opsConcatMap (f : ℕ → List FFTOp) : List ℕ → List FFTOp
  | [] => []
  | j :: rest => f j ++ opsConcatMap f rest

/-- The arithmetic progression `j, j+step, ...` of indices below `bnd`
(with fuel; any fuel at least the number of terms yields them all). -/
def stepRange : ℕ → ℕ → ℕ → ℕ → List ℕ
  | 0, _, _, _ => []
  | f + 1, j, bnd, step => if j < bnd then j :: stepRange f (j + step) bnd step
    else []

/-- The two-output combine of the sqrt2 layer as the source dispatches
it: sqrt2 butterfly when `w` and `j` are both odd, plain butterfly at
halved index when `w` is odd and `j` even, plain butterfly at halved
weight when `w` is even. -/
def sqrt2CombineOp (n w limbs j : ℕ) : List FFTOp :=
  if w % 2 = 1 then
    if j % 2 = 1 then [FFTOp.bflyS j (2 * n + j) j limbs w]
    else [FFTOp.bfly j (2 * n + j) (j / 2) limbs w]
  else [FFTOp.bfly j (2 * n + j) j limbs (w / 2)]

/-- The one-sided adjust of the sqrt2 layer as the source dispatches it:
it writes slot `j + 2n` only, using the sqrt2 adjust when `w` and the
column index `i` are both odd. -/
def sqrt2AdjustOp (n w limbs i j : ℕ) : List FFTOp :=
  if w % 2 = 1 then
    if i % 2 = 1 then [FFTOp.adjS (j + 2 * n) j j limbs w]
    else [FFTOp.adj (j + 2 * n) j (j / 2) limbs w]
  else [FFTOp.adj (j + 2 * n) j j limbs (w / 2)]

/-- The sqrt2 layer as the claim states it: for every `j` of the column
below the truncation boundary, the combine of slots `j` and `2n + j`
uses the sqrt2-adjusted butterfly whenever the bit-weight `w` is odd and
the plain butterfly when `w` is even; beyond the boundary the one-sided
adjust writes slot `j + 2n`. -/
def sqrt2LayerClaimSpec (n w n1 trunc limbs i : ℕ) : List FFTOp :=
  opsConcatMap (fun j =>
    if j < trunc - 2 * n then
      if w % 2 = 1 then [FFTOp.bflyS j (2 * n + j) j limbs w]
      else [FFTOp.bfly j (2 * n + j) j limbs (w / 2)]
    else sqrt2AdjustOp n w limbs i j) (stepRange (2 * n + 1) i (2 * n) n1)

/-- The sqrt2 layer as amended: the combine additionally dispatches on
the parity of the slot index `j` when `w` is odd (sqrt2 butterfly only
for odd `j`, plain butterfly at halved index for even `j`), and the
one-sided adjust dispatches on the parity of the column index `i`. -/
def sqrt2LayerAmendedSpec (n w n1 trunc limbs i : ℕ) : List FFTOp :=
  opsConcatMap (fun j =>
    if j < trunc - 2 * n then sqrt2CombineOp n w limbs j
    else sqrt2AdjustOp n w limbs i j) (stepRange (2 * n + 1) i (2 * n) n1)

lemma sqrt2LayerLoop_eq_spec (n w n1 trunc limbs i : ℕ)
    (hb : trunc - 2 * n ≤ 2 * n) :
    ∀ fuel j, sqrt2LayerLoop n w n1 trunc limbs i fuel j =
      opsConcatMap (fun j =>
        if j < trunc - 2 * n then sqrt2CombineOp n w limbs j
        else sqrt2AdjustOp n w limbs i j) (stepRange fuel j (2 * n) n1) := by
  intro fuel
  induction fuel with
  | zero => intro j; rfl
  | succ fuel ih =>
      intro j
      by_cases h1 : j < trunc - 2 * n
      · have h2 : j < 2 * n := by omega
        rw [sqrt2LayerLoop, if_pos h1, stepRange, if_pos h2, opsConcatMap,
          if_pos h1, ih (j + n1), sqrt2CombineOp]
      by_cases h2 : j < 2 * n
      · rw [sqrt2LayerLoop, if_neg h1, if_pos h2, stepRange, if_pos h2,
          opsConcatMap, if_neg h1, ih (j + n1), sqrt2AdjustOp]
      · rw [sqrt2LayerLoop, if_neg h1, if_neg h2, stepRange, if_neg h2,
          opsConcatMap]

/-- **C6 (amended).** The sqrt2 layer of the column pass (shared by
`fft_mfa_truncate_sqrt2` and its outer variant, whose column passes are
literally `sqrt2LayerOps` followed by the column transform and reorder)
equals the amended description: a combine of slots `j` and `2n + j` for
every `j` of the column below the truncation boundary — sqrt2-adjusted
butterfly when `w` is odd and `j` is odd, plain butterfly at halved
index when `w` is odd and `j` is even, plain butterfly at halved weight
when `w` is even — and, at or beyond the boundary, only a one-sided
adjust writing slot `j + 2n` (sqrt2-adjusted exactly when `w` and the
column index `i` are odd). -/
theorem sqrt2Layer_structure (W n w n1 trunc limbs i : ℕ)
    (htr : trunc ≤ 4 * n) :
    sqrt2LayerOps n w n1 trunc limbs i =
      sqrt2LayerAmendedSpec n w n1 trunc limbs i ∧
    mfaLeftColOps W n w n1 trunc =
      passLoop (fun i =>
        sqrt2LayerOps n w n1 trunc (n * w / W) i ++
        fft_radix2_twiddle_ops W i n1 (2 * n / n1 / 2) (w * n1) w 0 i 1 ++
        bitrevOps i n1 (fftDepth (2 * n / n1)) (2 * n / n1)) n1 ∧
    fft_mfa_truncate_sqrt2_outer_ops W n w n1 trunc =
      mfaLeftColOps W n w n1 trunc ++ mfaRightColOps W n w n1 trunc :=
  ⟨sqrt2LayerLoop_eq_spec n w n1 trunc limbs i (by omega) (2 * n + 1) i,
    rfl, rfl⟩

/-- Witness for C6's amended theorem at `n = 2`, `w = 1` (odd), `n1 = 2`,
`trunc = 6`, column `i = 1`. -/
theorem sqrt2Layer_structure_witness :
    (6 : ℕ) ≤ 4 * 2 ∧
    (sqrt2LayerOps 2 1 2 6 0 1 = sqrt2LayerAmendedSpec 2 1 2 6 0 1 ∧
    mfaLeftColOps 64 2 1 2 6 =
      passLoop (fun i =>
        sqrt2LayerOps 2 1 2 6 (2 * 1 / 64) i ++
        fft_radix2_twiddle_ops 64 i 2 (2 * 2 / 2 / 2) (1 * 2) 1 0 i 1 ++
        bitrevOps i 2 (fftDepth (2 * 2 / 2)) (2 * 2 / 2)) 2 ∧
    fft_mfa_truncate_sqrt2_outer_ops 64 2 1 2 6 =
      mfaLeftColOps 64 2 1 2 6 ++ mfaRightColOps 64 2 1 2 6) :=
  ⟨by decide, sqrt2Layer_structure 64 2 1 2 6 0 1 (by decide)⟩

/-- **C6 (counterexample).** At `n = 2`, `w = 1` (odd bit-weight),
`n1 = 2`, `trunc = 8`, column `i = 0`, the sqrt2 layer is *not* what the
claim states: the slots with even `j` are combined with the plain
butterfly at halved index, not with the sqrt2-adjusted butterfly. -/
theorem sqrt2Layer_claim_counterexample :
    sqrt2LayerOps 2 1 2 8 0 0 ≠ sqrt2LayerClaimSpec 2 1 2 8 0 0 := by
  decide

/-! ## The outer variant against the full matrix-Fourier transform -/

/-- **C1 (amended).** `fft_mfa_truncate_sqrt2_outer` performs the column
pass (sqrt2 layer, column transforms and bit-reversal reorder) for both
halves and omits the row pass for *both* halves.  Consequently, for
every implementation of the external primitives and every state whose
ownership is non-aliased over the `4n` slots and scratch variables: the
right half (slots `2n..4n`) of its result holds exactly the coefficient
values `fft_mfa_truncate_sqrt2` reaches immediately before its
right-half row pass, and the left half holds the values the full
variant reaches immediately before its left-half row pass (i.e. after
steps 1-2 on the left half). -/
theorem mfa_outer_structure {C : Type} (P : FFTPrims C) (st : FFTState C)
    (W n w n1 trunc d d2 : ℕ)
    (hn1 : n1 = 2 ^ d2) (hn2 : 2 * n / n1 = 2 ^ d)
    (hprod : n1 * (2 * n / n1) = 2 * n) (htr : trunc ≤ 4 * n)
    (hinj : OwnInjN st (4 * n + 3)) :
    (∀ k, 2 * n ≤ k → k < 4 * n →
      vals (exec P (fft_mfa_truncate_sqrt2_outer_ops W n w n1 trunc) st) k =
        vals (exec P (mfaLeftColOps W n w n1 trunc ++ mfaLeftRowOps W n w n1 ++
          mfaRightColOps W n w n1 trunc) st) k) ∧
    (∀ k, k < 2 * n →
      vals (exec P (fft_mfa_truncate_sqrt2_outer_ops W n w n1 trunc) st) k =
        vals (exec P (mfaLeftColOps W n w n1 trunc) st) k) := by
  have hokL : ∀ op ∈ mfaLeftColOps W n w n1 trunc, OpOKBelow (4 * n + 3) op := by
    refine opOKBelow_of_range ?_
    intro op hop
    obtain ⟨hs, hd⟩ := mfaLeftColOps_ok W n w n1 trunc d d2 hn1 hn2 hprod htr
      op hop
    exact ⟨fun s hss => by have := hs s hss; omega, hd⟩
  have hokR : ∀ op ∈ mfaLeftRowOps W n w n1, OpOKBelow (4 * n + 3) op := by
    refine opOKBelow_of_range ?_
    intro op hop
    obtain ⟨hs, hd⟩ := mfaLeftRowOps_ok W n w n1 d d2 hn1 hprod op hop
    exact ⟨fun s hss => by have := hs s hss; omega, hd⟩
  have hinj1 : OwnInjN (exec P (mfaLeftColOps W n w n1 trunc) st) (4 * n + 3) :=
    ownInjN_of_perm (exec_ownPerm P _ st _ hokL) hinj
  have hinj2 : OwnInjN (exec P (mfaLeftRowOps W n w n1)
      (exec P (mfaLeftColOps W n w n1 trunc) st)) (4 * n + 3) :=
    ownInjN_of_perm (exec_ownPerm P _ _ _ hokR) hinj1
  have hframeRow : FrameOK (fun s => s < 2 * n)
      (exec P (mfaLeftColOps W n w n1 trunc) st)
      (exec P (mfaLeftRowOps W n w n1)
        (exec P (mfaLeftColOps W n w n1 trunc) st)) := by
    refine exec_frame P _ _ _ ?_
    intro op hop s hs
    exact (mfaLeftRowOps_ok W n w n1 d d2 hn1 hprod op hop).1 s
      (writes_subset_slots op s hs)
  have heq : ∀ k, 2 * n ≤ k ∧ k < 4 * n →
      vals (exec P (mfaLeftColOps W n w n1 trunc) st) k =
        vals (exec P (mfaLeftRowOps W n w n1)
          (exec P (mfaLeftColOps W n w n1 trunc) st)) k := by
    rintro k ⟨hk1, hk2⟩
    exact (frame_vals_outside hframeRow hinj1 (fun s hs => by omega) k
      (by omega) (by omega)).symm
  constructor
  · intro k hk1 hk2
    have h1 : fft_mfa_truncate_sqrt2_outer_ops W n w n1 trunc =
        mfaLeftColOps W n w n1 trunc ++ mfaRightColOps W n w n1 trunc := rfl
    rw [h1, exec_append, exec_append, exec_append]
    refine exec_valsEq P (mfaRightColOps W n w n1 trunc)
      (fun s => 2 * n ≤ s ∧ s < 4 * n) (4 * n + 3) _ _
      (fun op hop s hs =>
        (mfaRightColOps_ok W n w n1 trunc d d2 hn1 hn2 hprod op hop).1 s hs)
      (fun op hop =>
        (mfaRightColOps_ok W n w n1 trunc d d2 hn1 hn2 hprod op hop).2)
      (fun s hs => by omega) hinj1 hinj2 heq k ⟨hk1, hk2⟩
  · intro k hk
    have h1 : fft_mfa_truncate_sqrt2_outer_ops W n w n1 trunc =
        mfaLeftColOps W n w n1 trunc ++ mfaRightColOps W n w n1 trunc := rfl
    rw [h1, exec_append]
    have hframeR : FrameOK (fun s => 2 * n ≤ s ∧ s < 4 * n)
        (exec P (mfaLeftColOps W n w n1 trunc) st)
        (exec P (mfaRightColOps W n w n1 trunc)
          (exec P (mfaLeftColOps W n w n1 trunc) st)) := by
      refine exec_frame P _ _ _ ?_
      intro op hop s hs
      exact (mfaRightColOps_ok W n w n1 trunc d d2 hn1 hn2 hprod op hop).1 s
        (writes_subset_slots op s hs)
    exact frame_vals_outside hframeR hinj1 (fun s hs => by omega) k
      (by omega) (by omega)

/-- Witness for C1's amended theorem at `n = 2`, `w = 2`, `n1 = 2`,
`trunc = 8` on `st0`. -/
theorem mfa_outer_structure_witness :
    ((2 : ℕ) = 2 ^ 1 ∧ 2 * 2 / 2 = 2 ^ 1 ∧ 2 * (2 * 2 / 2) = 2 * 2 ∧
      (8 : ℕ) ≤ 4 * 2 ∧ OwnInjN st0 (4 * 2 + 3)) ∧
    ((∀ k, 2 * 2 ≤ k → k < 4 * 2 →
      vals (exec P0 (fft_mfa_truncate_sqrt2_outer_ops 64 2 2 2 8) st0) k =
        vals (exec P0 (mfaLeftColOps 64 2 2 2 8 ++ mfaLeftRowOps 64 2 2 2 ++
          mfaRightColOps 64 2 2 2 8) st0) k) ∧
    (∀ k, k < 2 * 2 →
      vals (exec P0 (fft_mfa_truncate_sqrt2_outer_ops 64 2 2 2 8) st0) k =
        vals (exec P0 (mfaLeftColOps 64 2 2 2 8) st0) k)) :=
  ⟨⟨by decide, by decide, by decide, by decide, by decide⟩,
    mfa_outer_structure P0 st0 64 2 2 2 8 1 1 (by decide) (by decide)
      (by decide) (by decide) (by decide)⟩

/-- **C1 (counterexample).** The claim as stated is false: the left half
of the outer variant's output does *not* equal the full variant's left
half after its row pass.  At `n = 2`, `w = 2`, `n1 = 2`, `trunc = 8`,
with the concrete primitives `P0` and state `st0` (whose ownership is
non-aliased and whose scratch buffers are disjoint from all slots), slot
`0` differs, because the outer variant omits the left-half row pass. -/
theorem mfa_outer_claim_counterexample :
    vals (exec P0 (fft_mfa_truncate_sqrt2_outer_ops 64 2 2 2 8) st0) 0 ≠
      vals (exec P0 (fft_mfa_truncate_sqrt2_ops 64 2 2 2 8) st0) 0 := by
  decide
